import Mathlib

/-!
# Chunked file compressor: embedding of `file.cpp`

The program splits a file into 1 MiB chunks, compresses every chunk with zlib,
and packs the results into a container
`"MYCOMP" | chunk_count | (original_size | compressed_size | crc | payload)*`.

Conventions of the embedding.

* Bytes are `UInt8`; a file is the `List UInt8` of its contents.
* `size_t` is 64 bits wide and the byte order is little endian (the LP64 targets
  the program is built for); `uInt` of zlib is 32 bits wide.  Values of machine
  integers are `Nat` with an explicit reduction where the source narrows.
* zlib is an external library.  Its three entry points used by the source are
  the fields of the structure `Zlib`; every definition translated from the source
  takes the library as its first argument.
* A chunk task started with `std::async` receives `.data()` of a vector that is
  local to the loop body (source lines 122-128 and 175-181).  The vector is
  destroyed at the end of the iteration while the task may still be running, so
  what the task reads through the pointer is not fixed by the source: it is
  supplied by `Env`, as some bytes of the requested length or as a fault that
  kills the process.  Every task that was started is joined before the function
  is left (by `future::get` or by the destructor of the future), so a run is
  killed exactly when one of its tasks faults.
* `future::get` returns the value of the task or rethrows its exception.
* An exception is a value of `Error`; `Error.what` is the message of the source.
* The two vectors of `decompress_file` whose size is read from the file can fail
  to be constructed (`vector_alloc`).  The allocations whose size the program
  derives from data it already holds succeed, a block that was obtained can be
  used, and a thread can always be started.
* Locals that the source leaves uninitialised before an unchecked `read` hold the
  indeterminate bytes supplied by `Junk`.
-/

namespace FileCompressor

/-! ## Machine integers and raw object representation -/

/-- The `n` low-order bytes of `v`, least significant first: the bytes that
`outfile.write(reinterpret_cast<const char*>(&v), n)` emits. -/
def toLE : Nat → Nat → List UInt8
  | 0, _ => []
  | n + 1, v => UInt8.ofNat (v % 256) :: toLE n (v / 256)

/-- The unsigned integer whose object representation is the given bytes. -/
def fromLE : List UInt8 → Nat
  | [] => 0
  | b :: bs => b.toNat + 256 * fromLE bs

/-- Value of `static_cast<std::streamsize>(v)` for a `size_t` value `v`. -/
def streamsize (v : Nat) : Int :=
  if v % 2 ^ 64 < 2 ^ 63 then ((v % 2 ^ 64 : Nat) : Int) else ((v % 2 ^ 64 : Nat) : Int) - 2 ^ 64

/-! ## The zlib interface -/

/-- The zlib entry points the program calls.
* `crc32 data` is `crc32(0, data, size)`.
* `deflate data` is the complete stream that `deflate(.., Z_FINISH)` emits for
  `data` at `Z_DEFAULT_COMPRESSION` when given enough output space; a call with a
  smaller buffer emits the next part of this stream.
* `deflate_avail_in data k` is `avail_in` after a `Z_FINISH` call that stopped
  with `k` bytes of the stream emitted.
* `inflate data` is everything `inflate` writes for the input `data` when the
  output space does not run out; a call with a smaller buffer writes a prefix. -/
structure Zlib where
  crc32 : List UInt8 → Nat
  deflate : List UInt8 → List UInt8
  deflate_avail_in : List UInt8 → Nat → Nat
  inflate : List UInt8 → List UInt8

/-- The source's `ChunkData`. -/
structure ChunkData where
  original_size : Nat
  compressed_size : Nat
  crc : Nat
  compressed_data : List UInt8
deriving DecidableEq, Repr

/-- Exceptions that leave the program's functions: one constructor per `throw`
site, and the two exceptions of a `std::vector` constructor. -/
inductive Error where
  | openInput
  | openOutput
  | readInput
  | invalidFormat
  | readCompressed
  | crcMismatch (index : Nat)
  | lengthError
  | badAlloc
deriving DecidableEq, Repr

/-- The text of `e.what()`. -/
def Error.what : Error → String
  | .openInput => "Failed to open input file."
  | .openOutput => "Failed to open output file."
  | .readInput => "Failed to read input file."
  | .invalidFormat => "Invalid file format."
  | .readCompressed => "Failed to read compressed data."
  | .crcMismatch index => "CRC mismatch for chunk " ++ toString index
  | .lengthError => "cannot create std::vector larger than max_size()"
  | .badAlloc => "std::bad_alloc"

/-- Source `compute_crc`: the `uint32_t` result of `crc32(0, data, size)`. -/
def compute_crc (Z : Zlib) (data : List UInt8) : Nat :=
  Z.crc32 data % 2 ^ 32

/-- Size given to `output.resize(data_size * 1.1 + 12)`.  The double product is
truncated towards zero; for sizes below `2 ^ 48` that is `⌊11 n / 10⌋ + 12`. -/
def deflate_buffer_size (data_size : Nat) : Nat :=
  (data_size * 11 / 10 + 12) % 2 ^ 64

/-- Source `compress_with_zlib`: one `deflate(Z_FINISH)` into a buffer of
`data_size * 1.1 + 12` bytes, a second one into the doubled buffer when the first
left no output space or unread input, then truncation to `total_out`.  The
differences are those of `size_t`, narrowed to the 32 bits of `avail_out`. -/
def compress_with_zlib (Z : Zlib) (data : List UInt8) : List UInt8 :=
  let data_size := data.length
  let avail_in := data_size % 2 ^ 32
  let stream := Z.deflate (data.take avail_in)
  let size₁ := deflate_buffer_size data_size
  let avail_out := size₁ % 2 ^ 32
  -- first deflate call
  let total_out := min avail_out stream.length
  let avail_out := avail_out - total_out
  let avail_in := Z.deflate_avail_in (data.take avail_in) total_out
  if avail_out = 0 ∨ avail_in ≠ 0 then
    let size₂ := size₁ * 2 % 2 ^ 64
    let avail_out := (size₂ + 2 ^ 64 - total_out) % 2 ^ 64 % 2 ^ 32
    -- second deflate call
    let total_out := total_out + min avail_out (stream.length - total_out)
    stream.take total_out
  else
    stream.take total_out

/-- Source `decompress_with_zlib`: a single `inflate` into a buffer of
`compressed_size * 10` bytes, then truncation to `total_out`. -/
def decompress_with_zlib (Z : Zlib) (compressed_data : List UInt8) : List UInt8 :=
  let compressed_size := compressed_data.length
  let avail_in := compressed_size % 2 ^ 32
  let size := compressed_size * 10 % 2 ^ 64
  let avail_out := size % 2 ^ 32
  let written := (Z.inflate (compressed_data.take avail_in)).take avail_out
  let total_out := written.length
  written.take total_out

/-- Source `compress_chunk`. -/
def compress_chunk (Z : Zlib) (_index : Nat) (data : List UInt8) : ChunkData :=
  let crc := compute_crc Z data
  let compressed_data := compress_with_zlib Z data
  { original_size := data.length, compressed_size := compressed_data.length,
    crc := crc, compressed_data := compressed_data }

/-- Source `decompress_chunk`. -/
def decompress_chunk (Z : Zlib) (index : Nat) (compressed_data : List UInt8) (crc : Nat) :
    Except Error (List UInt8) :=
  let decompressed_data := decompress_with_zlib Z compressed_data
  let computed_crc := compute_crc Z decompressed_data
  if computed_crc ≠ crc then .error (.crcMismatch index)
  else .ok decompressed_data

/-! ## Streams -/

/-- A `std::ifstream` opened in binary mode: the bytes not yet extracted and
whether the stream is still `good()`. -/
structure IStream where
  data : List UInt8
  good : Bool
deriving DecidableEq, Repr

/-- The call `infile.read(buf, n)` where `buf` currently holds `old`.  It returns
the stream afterwards, the new contents of `buf`, and the value of `gcount()`.
On a stream that is not good nothing is extracted; otherwise up to `n` bytes are
stored at the front of `buf`, and extracting fewer than `n` sets `failbit`. -/
def IStream.read (s : IStream) (old : List UInt8) (n : Int) :
    IStream × List UInt8 × Nat :=
  if s.good then
    let got := s.data.take n.toNat
    ({ data := s.data.drop n.toNat, good := decide ((got.length : Int) = n) },
     got ++ old.drop got.length, got.length)
  else
    (s, old, 0)

/-- Indeterminate initial contents of the locals of `decompress_file` that are
filled by a `read` whose success is not checked: `magic`, `total_chunks`, and for
each iteration `original_size`, `compressed_size` and `crc`. -/
structure Junk where
  magic : List UInt8
  total_chunks : Nat
  original_size : Nat → Nat
  compressed_size : Nat → Nat
  crc : Nat → Nat

/-- What the source leaves to the run-time environment.
* `compress_view i chunk` is what task `i` of `compress_file` finds at the pointer
  it was given, after the vector that held `chunk` may have been destroyed: the
  bytes that `compute_crc` reads there and the bytes that `compress_with_zlib`
  reads there afterwards, or `none` when the access faults and the process is
  killed.
* `decompress_view i payload` is what task `i` of `decompress_file` finds at its
  pointer, where the vector held `payload`: the bytes that `decompress_with_zlib`
  reads there, or `none` when the access faults.
* `heap` is the largest number of bytes that one allocation can obtain.

A byte string describes a read completely, because `crc32`, `deflate` and
`inflate` fetch every input byte once. -/
structure Env where
  compress_view : Nat → List UInt8 → Option (List UInt8 × List UInt8)
  decompress_view : Nat → List UInt8 → Option (List UInt8)
  heap : Nat

/-- The `n` bytes read at an address where the bytes `found` lie: a task reads
exactly the length it was given, so a view is cut or filled up to that length. -/
def fit (n : Nat) (found : List UInt8) : List UInt8 :=
  (found ++ List.replicate n 0).take n

/-- Construction of a `std::vector` of `n` elements of `elem_size` bytes each:
`std::length_error` above `max_size()`, which is `PTRDIFF_MAX / elem_size`,
`std::bad_alloc` when the heap cannot provide the block, else success. -/
def vector_alloc (heap elem_size n : Nat) : Option Error :=
  if n > (2 ^ 63 - 1) / elem_size then some .lengthError
  else if n * elem_size > heap then some .badAlloc
  else none

/-- Size of a `std::future<DecompressedData>` (a shared pointer to the state). -/
def sizeof_future : Nat := 16

/-- Waiting for all tasks that were started: their values, or `none` when one of
them faulted. -/
def joined {α : Type} : List (Option α) → Option (List α)
  | [] => some []
  | none :: _ => none
  | some a :: rest =>
    match joined rest with
    | some l => some (a :: l)
    | none => none

/-- The C library `strncmp` on byte strings; a list that ends is read as ending
in NUL.  The sign of the result is the order of the first differing bytes. -/
def strncmp : List UInt8 → List UInt8 → Nat → Int
  | _, _, 0 => 0
  | s₁, s₂, n + 1 =>
    let c₁ := s₁.headD 0
    let c₂ := s₂.headD 0
    if c₁ ≠ c₂ then (c₁.toNat : Int) - (c₂.toNat : Int)
    else if c₁ = 0 then 0
    else strncmp s₁.tail s₂.tail n

/-- The string literal `"MYCOMP"` (its six characters, without the final NUL). -/
def MYCOMP : List UInt8 := [77, 89, 67, 79, 77, 80]

/-- What a run of `compress_file` or `decompress_file` leaves behind: the
exception that escaped (if any), how many bytes were extracted from the input,
how many chunk tasks were started, the contents of the output file after a run
that returned or threw (`none` when it was never opened), and whether the process
was killed by a faulting task. -/
structure Outcome where
  error : Option Error
  consumed : Nat
  dispatched : Nat
  outfile : Option (List UInt8)
  killed : Bool := false
deriving DecidableEq, Repr

/-- A run in which a task faulted: the process is gone and nothing is returned or
thrown.  The output file then holds at most a part of what was written before
the fault, and never what the faulting task was to return; its contents are not
recorded. -/
def killed_run : Outcome :=
  { error := none, consumed := 0, dispatched := 0, outfile := none, killed := true }

/-! ## compress_file -/

/-- The constant `chunk_size` of `compress_file`. -/
def chunk_size : Nat := 1 * 1024 * 1024

/-- Number of chunks computed by `compress_file` (source lines 101-104). -/
def total_chunks (chunk_size file_size : Nat) : Nat :=
  let total_chunks := file_size / chunk_size
  if file_size % chunk_size ≠ 0 then total_chunks + 1 else total_chunks

/-- The `read_size` of iteration `i` of the first loop of `compress_file`. -/
def read_size (chunk_size file_size total_chunks i : Nat) : Nat :=
  if i = total_chunks - 1 then file_size - i * chunk_size else chunk_size

/-- The task `std::async(compress_chunk, i, chunk_data.data(), read_size)`: the
body of `compress_chunk` run on the pointer into the vector that held
`chunk_data`.  `data_size` is passed by value; `compute_crc` and then
`compress_with_zlib` each read `data_size` bytes at the pointer and find what the
environment's view holds at that moment. -/
def compress_task (Z : Zlib) (E : Env) (i : Nat) (chunk_data : List UInt8) :
    Option ChunkData :=
  let data_size := chunk_data.length
  match E.compress_view i chunk_data with
  | some (at_crc, at_deflate) =>
    let crc := compute_crc Z (fit data_size at_crc)
    let compressed_data := compress_with_zlib Z (fit data_size at_deflate)
    some { original_size := data_size, compressed_size := compressed_data.length,
           crc := crc, compressed_data := compressed_data }
  | none => none

/-- First loop of `compress_file`, from index `i` with `k` iterations to go:
reads each chunk and starts its task.  Returns the stream, the futures created so
far, and the exception if a read came up short. -/
def compress_dispatch (Z : Zlib) (E : Env) (chunk_size file_size total_chunks : Nat) :
    Nat → Nat → IStream → IStream × List (Option ChunkData) × Option Error
  | 0, _, infile => (infile, [], none)
  | k + 1, i, infile =>
    let read_size := read_size chunk_size file_size total_chunks i
    let (infile, chunk_data, gcount) :=
      infile.read (List.replicate read_size 0) (streamsize read_size)
    if (gcount : Int) ≠ streamsize read_size then (infile, [], some .readInput)
    else
      let future := compress_task Z E i chunk_data
      let (infile, futures, err) :=
        compress_dispatch Z E chunk_size file_size total_chunks k (i + 1) infile
      (infile, future :: futures, err)

/-- One iteration of the second loop of `compress_file`: the bytes written for a
chunk. -/
def write_chunk (chunk : ChunkData) : List UInt8 :=
  toLE 8 chunk.original_size ++ toLE 8 chunk.compressed_size ++ toLE 4 chunk.crc
    ++ chunk.compressed_data

/-- Second loop of `compress_file`. -/
def compress_collect : List ChunkData → List UInt8
  | [] => []
  | chunk :: futures => write_chunk chunk ++ compress_collect futures

/-- Source `compress_file` with the chunk size as a parameter, run on a file with
the given contents.  All tasks are joined before the function is left; the run is
killed when one of them faulted. -/
def compress_file_with (Z : Zlib) (E : Env) (chunk_size : Nat) (input : List UInt8) :
    Outcome :=
  let infile : IStream := { data := input, good := true }
  let file_size := input.length
  let total_chunks := total_chunks chunk_size file_size
  let outfile := MYCOMP ++ toLE 8 total_chunks
  match compress_dispatch Z E chunk_size file_size total_chunks total_chunks 0 infile with
  | (infile, futures, err) =>
    match joined futures with
    | none => killed_run
    | some chunks =>
      match err with
      | some e =>
        { error := some e, consumed := input.length - infile.data.length,
          dispatched := futures.length, outfile := some outfile }
      | none =>
        { error := none, consumed := input.length - infile.data.length,
          dispatched := futures.length, outfile := some (outfile ++ compress_collect chunks) }

/-- Source `compress_file`. -/
def compress_file (Z : Zlib) (E : Env) (input : List UInt8) : Outcome :=
  compress_file_with Z E chunk_size input

/-! ## decompress_file -/

/-- The task `std::async(decompress_chunk, i, compressed_data.data(),
compressed_size, crc)`: `decompress_chunk` run on the `compressed_size` bytes that
`decompress_with_zlib` finds at the pointer; `i`, `compressed_size` and `crc` are
passed by value. -/
def decompress_task (Z : Zlib) (E : Env) (i : Nat) (compressed_data : List UInt8)
    (crc : Nat) : Option (Except Error (List UInt8)) :=
  match E.decompress_view i compressed_data with
  | some found => some (decompress_chunk Z i (fit compressed_data.length found) crc)
  | none => none

/-- First loop of `decompress_file`, from index `i` with `k` iterations to go:
reads each record, constructs the vector for its payload, and starts its task. -/
def decompress_dispatch (Z : Zlib) (E : Env) (J : Junk) :
    Nat → Nat → IStream →
      IStream × List (Option (Except Error (List UInt8))) × Option Error
  | 0, _, infile => (infile, [], none)
  | k + 1, i, infile =>
    let (infile, _original_size, _) := infile.read (toLE 8 (J.original_size i)) 8
    let (infile, b, _) := infile.read (toLE 8 (J.compressed_size i)) 8
    let compressed_size := fromLE (b.take 8)
    let (infile, b, _) := infile.read (toLE 4 (J.crc i)) 4
    let crc := fromLE (b.take 4)
    match vector_alloc E.heap 1 compressed_size with
    | some e => (infile, [], some e)
    | none =>
      let (infile, compressed_data, gcount) :=
        infile.read (List.replicate compressed_size 0) (streamsize compressed_size)
      if (gcount : Int) ≠ streamsize compressed_size then
        (infile, [], some .readCompressed)
      else
        let future := decompress_task Z E i compressed_data crc
        let (infile, futures, err) := decompress_dispatch Z E J k (i + 1) infile
        (infile, future :: futures, err)

/-- Second loop of `decompress_file`: waits for the futures in index order and
appends each result to the output; the first task that threw ends the loop.
Returns the bytes written and the exception, if any. -/
def decompress_collect : List (Except Error (List UInt8)) → List UInt8 × Option Error
  | [] => ([], none)
  | .error e :: _ => ([], some e)
  | .ok decompressed :: futures =>
    let (out, err) := decompress_collect futures
    (decompressed ++ out, err)

/-- Source `decompress_file`, run on a file with the given contents.  All tasks
are joined before the function is left; the run is killed when one of them
faulted. -/
def decompress_file (Z : Zlib) (E : Env) (J : Junk) (input : List UInt8) : Outcome :=
  let infile : IStream := { data := input, good := true }
  let (infile, magic, _) := infile.read J.magic 6
  if strncmp (magic.take 6) MYCOMP 6 ≠ 0 then
    { error := some .invalidFormat, consumed := input.length - infile.data.length,
      dispatched := 0, outfile := none }
  else
    let (infile, b, _) := infile.read (toLE 8 J.total_chunks) 8
    let total_chunks := fromLE (b.take 8)
    match vector_alloc E.heap sizeof_future total_chunks with
    | some e =>
      { error := some e, consumed := input.length - infile.data.length,
        dispatched := 0, outfile := some [] }
    | none =>
      match decompress_dispatch Z E J total_chunks 0 infile with
      | (infile, futures, err) =>
        match joined futures with
        | none => killed_run
        | some results =>
          match err with
          | some e =>
            { error := some e, consumed := input.length - infile.data.length,
              dispatched := futures.length, outfile := some [] }
          | none =>
            let (out, err) := decompress_collect results
            { error := err, consumed := input.length - infile.data.length,
              dispatched := futures.length, outfile := some out }

/-! ## The documented contract of zlib -/

/-- The value of zlib's `compressBound(sourceLen)`. -/
def compressBound (sourceLen : Nat) : Nat :=
  sourceLen + sourceLen / 2 ^ 12 + sourceLen / 2 ^ 14 + sourceLen / 2 ^ 25 + 13

/-- What `zlib.h` promises about the entry points: inflating a complete deflate
stream gives back the data, and a deflate stream is no longer than
`compressBound` of the data length. -/
structure Zlib.Lawful (Z : Zlib) : Prop where
  inflate_deflate : ∀ data, Z.inflate (Z.deflate data) = data
  deflate_bound : ∀ data, (Z.deflate data).length ≤ compressBound data.length

/-! ## A small codec to run the program on concrete files

`rlz` fills the `Zlib` interface with the real CRC-32 and a run-length coder whose
stream has the shape of a zlib stream: a header byte, a body, and a check byte
that the decoder reads only to form its return code. -/

/-- One bit step of the reflected CRC-32 (polynomial `0xEDB88320`). -/
def crc32_bit (c : Nat) : Nat :=
  if c % 2 = 1 then (c / 2) ^^^ 0xEDB88320 else c / 2

/-- CRC-32 register after one more byte. -/
def crc32_byte (c : Nat) (b : UInt8) : Nat :=
  crc32_bit (crc32_bit (crc32_bit (crc32_bit (crc32_bit (crc32_bit (crc32_bit
    (crc32_bit (c ^^^ b.toNat))))))))

/-- CRC-32 of a byte string, as zlib's `crc32(0, data, size)` computes it. -/
def crc32 (data : List UInt8) : Nat :=
  (data.foldl crc32_byte 0xFFFFFFFF) ^^^ 0xFFFFFFFF

/-- Maximal runs of equal bytes, none longer than 255. -/
def rlz_runs : List UInt8 → List (Nat × UInt8)
  | [] => []
  | b :: rest =>
    match rlz_runs rest with
    | (c, b₁) :: t => if b = b₁ ∧ c < 255 then (c + 1, b₁) :: t else (1, b) :: (c, b₁) :: t
    | [] => [(1, b)]

/-- Runs as bytes: count, then value. -/
def rlz_emit : List (Nat × UInt8) → List UInt8
  | [] => []
  | (c, b) :: t => UInt8.ofNat c :: b :: rlz_emit t

/-- Check byte of the stream: the sum of the data bytes. -/
def rlz_check (data : List UInt8) : UInt8 :=
  data.foldl (fun a b => a + b) 0

/-- Encoder: header 1 and the runs ended by a zero count when that is shorter than
the data, else header 0 and the data itself; then the check byte. -/
def rlz_deflate (data : List UInt8) : List UInt8 :=
  let body := rlz_emit (rlz_runs data)
  if body.length < data.length then 1 :: (body ++ [0, rlz_check data])
  else 0 :: (data ++ [rlz_check data])

/-- Decoder of the run body: stops at a zero count or when the input ends. -/
def rlz_expand : List UInt8 → List UInt8
  | c :: b :: rest => if c = 0 then [] else List.replicate c.toNat b ++ rlz_expand rest
  | _ => []

/-- Decoder: the bytes written for an input stream.  The check byte is not
compared here: a wrong one only changes the return code. -/
def rlz_inflate : List UInt8 → List UInt8
  | [] => []
  | h :: rest => if h = 0 then rest.dropLast else if h = 1 then rlz_expand rest else []

/-- The small codec as an instance of the zlib interface. -/
def rlz : Zlib where
  crc32 := crc32
  deflate := rlz_deflate
  deflate_avail_in := fun _ _ => 0
  inflate := rlz_inflate

/-- Junk used when running `decompress_file` on concrete files. -/
def junk0 : Junk where
  magic := [0, 0, 0, 0, 0, 0]
  total_chunks := 0
  original_size := fun _ => 0
  compressed_size := fun _ => 0
  crc := fun _ => 0

/-! ## The container as the specification describes it

These definitions follow the words of the specification (sections 3, 4.1, 4.3,
4.5 and 6); the theorems below compare them with the definitions translated
from the source. -/

/-- Chunk count of the specification: `ceil(total_size / chunk_size)`. -/
def spec_chunk_count (chunk_size total_size : Nat) : Nat :=
  ⌈(total_size : ℚ) / (chunk_size : ℚ)⌉₊

/-- Chunk `i` of the specification: the bytes at offsets `i * chunk_size` up to
`(i + 1) * chunk_size`, cut at the end of the file. -/
def spec_chunk (chunk_size : Nat) (input : List UInt8) (i : Nat) : List UInt8 :=
  (input.drop (i * chunk_size)).take chunk_size

/-- A chunk record of the container: the stored fields and the payload, whose
length is the stored `compressed_size`. -/
structure Record where
  original_size : Nat
  crc : Nat
  payload : List UInt8
deriving DecidableEq, Repr

/-- Serialised record: `original_size`, `compressed_size`, `checksum`, payload. -/
def Record.bytes (r : Record) : List UInt8 :=
  toLE 8 r.original_size ++ (toLE 8 r.payload.length ++ (toLE 4 r.crc ++ r.payload))

/-- Serialised records, in index order, nothing in between. -/
def records_bytes : List Record → List UInt8
  | [] => []
  | r :: rs => r.bytes ++ records_bytes rs

/-- Serialised container: magic, `chunk_count`, the records. -/
def container (records : List Record) : List UInt8 :=
  MYCOMP ++ (toLE 8 records.length ++ records_bytes records)

/-- Record of chunk `i` per the specification of `compress_chunk`: the length of
the chunk, the checksum of its bytes, and the encoded chunk as payload. -/
def spec_record (Z : Zlib) (chunk_size : Nat) (input : List UInt8) (i : Nat) : Record :=
  let raw_bytes := spec_chunk chunk_size input i
  { original_size := raw_bytes.length, crc := compute_crc Z raw_bytes,
    payload := compress_with_zlib Z raw_bytes }

/-- Records of all chunks of a file, in index order. -/
def spec_records (Z : Zlib) (chunk_size : Nat) (input : List UInt8) : List Record :=
  (List.range (spec_chunk_count chunk_size input.length)).map (spec_record Z chunk_size input)

/-! ## Auxiliary definitions for the theorems -/

/-- The futures that the first loop of `compress_file` holds when it ends. -/
def compress_futures (Z : Zlib) (E : Env) (input : List UInt8) : List (Option ChunkData) :=
  (compress_dispatch Z E chunk_size input.length (total_chunks chunk_size input.length)
    (total_chunks chunk_size input.length) 0 { data := input, good := true }).2.1

/-- The record that the second loop of `compress_file` writes for a chunk. -/
def ChunkData.record (c : ChunkData) : Record :=
  { original_size := c.original_size, crc := c.crc, payload := c.compressed_data }

/-- The bytes `flip` with bit `k % 8` of byte `k / 8` inverted. -/
def flip_bit : List UInt8 → Nat → List UInt8
  | [], _ => []
  | b :: bs, k => if k < 8 then (b ^^^ (UInt8.ofNat (2 ^ k))) :: bs else b :: flip_bit bs (k - 8)

/-- The futures that the first loop of `decompress_file` creates, from index `i`
on, for records that are read completely. -/
def decompress_futures (Z : Zlib) (E : Env) :
    Nat → List Record → List (Option (Except Error (List UInt8)))
  | _, [] => []
  | i, r :: rs =>
    decompress_task Z E i r.payload (r.crc % 2 ^ 32) :: decompress_futures Z E (i + 1) rs

/-- What the tasks of `decompress_file` compute, from index `i` on, when each of
them reads the payload of its record. -/
def decompress_tasks (Z : Zlib) : Nat → List Record → List (Except Error (List UInt8))
  | _, [] => []
  | i, r :: rs => decompress_chunk Z i r.payload (r.crc % 2 ^ 32) :: decompress_tasks Z (i + 1) rs

/-- The decoded chunks of a list of records, one after the other. -/
def decoded_bytes (Z : Zlib) : List Record → List UInt8
  | [] => []
  | r :: rs => decompress_with_zlib Z r.payload ++ decoded_bytes Z rs

/-- The check of `decompress_chunk` passes for the record. -/
def Record.checks (Z : Zlib) (r : Record) : Prop :=
  compute_crc Z (decompress_with_zlib Z r.payload) = r.crc % 2 ^ 32

/-- Offset in the container of the first payload byte of record `i`. -/
def payload_offset (records : List Record) (i : Nat) : Nat :=
  6 + 8 + (records_bytes (records.take i)).length + 8 + 8 + 4

/-- The bytes that a list of runs stands for. -/
def rlz_flat : List (Nat × UInt8) → List UInt8
  | [] => []
  | (c, b) :: t => List.replicate c b ++ rlz_flat t

/-- Value of a decimal digit character. -/
def digit_value (c : Char) : Nat := c.toNat - 48

/-! ## Concrete environments, library answers and files -/

/-- An environment in which every task reads its bytes before the vector is
destroyed, and every block that a vector may ask for is available. -/
def intact : Env where
  compress_view := fun _ chunk => some (chunk, chunk)
  decompress_view := fun _ payload => some payload
  heap := 2 ^ 63 - 1

/-- An environment in which the block of a destroyed vector has been handed out
again and zeroed by the time a task of `compress_file` reads it. -/
def reused : Env where
  compress_view := fun _ chunk => some (List.replicate chunk.length 0, List.replicate chunk.length 0)
  decompress_view := fun _ payload => some payload
  heap := 2 ^ 63 - 1

/-- An environment in which the block of a destroyed vector has been returned to
the system by the time a task reads it. -/
def unmapped : Env where
  compress_view := fun _ _ => none
  decompress_view := fun _ _ => none
  heap := 2 ^ 63 - 1

/-- An environment in which the payload vector of every iteration of
`decompress_file` gets the block of the one before, and task 0 reads only after
the payload of record 1, here `next`, was stored there. -/
def overtaken (next : List UInt8) : Env where
  compress_view := fun _ chunk => some (chunk, chunk)
  decompress_view := fun i payload => if i = 0 then some next else some payload
  heap := 2 ^ 63 - 1

/-- The file `"abc"`. -/
def abc : List UInt8 := [97, 98, 99]

/-- A file of 200 zero bytes. -/
def zeros200 : List UInt8 := List.replicate 200 0

/-- The zlib stream of `abc`: header `78 9c`, one fixed-Huffman block that ends in
bit 1 of byte 6, six padding bits, and the Adler-32 of `abc` in the last four
bytes. -/
def abc_stream : List UInt8 := [120, 156, 75, 76, 74, 6, 0, 2, 77, 1, 39]

/-- Recorded answers of `deflate` of zlib 1.2.13 (`Z_DEFAULT_COMPRESSION`,
`Z_FINISH`): the data and the complete stream. -/
def deflate_answers : List (List UInt8 × List UInt8) :=
  [(abc, abc_stream),
   ([0, 0, 0], [120, 156, 99, 96, 96, 0, 0, 0, 3, 0, 1]),
   (zeros200, [120, 156, 99, 96, 24, 30, 0, 0, 0, 200, 0, 1])]

/-- Recorded answers of `inflate` of zlib 1.2.13 (`Z_SYNC_FLUSH`, output space
not running out): the input and the bytes written.  Besides the three streams
above the inputs are `abc_stream` with one bit inverted: bit 0 of byte 3 (inside
the code of the first literal; return code `Z_DATA_ERROR` after the bytes
`e`, `b`, `c`), bit 2 of byte 6 (a padding bit; return code `Z_STREAM_END`), and
bit 0 of byte 10 (in the Adler-32; return code `Z_DATA_ERROR` after all of `abc`
was written). -/
def inflate_answers : List (List UInt8 × List UInt8) :=
  [(abc_stream, abc),
   ([120, 156, 99, 96, 96, 0, 0, 0, 3, 0, 1], [0, 0, 0]),
   ([120, 156, 99, 96, 24, 30, 0, 0, 0, 200, 0, 1], zeros200),
   ([120, 156, 75, 77, 74, 6, 0, 2, 77, 1, 39], [101, 98, 99]),
   ([120, 156, 75, 76, 74, 6, 4, 2, 77, 1, 39], abc),
   ([120, 156, 75, 76, 74, 6, 0, 2, 77, 1, 38], abc)]

/-- The recorded answer for `data`; the empty string where none was recorded. -/
def answer (answers : List (List UInt8 × List UInt8)) (data : List UInt8) : List UInt8 :=
  match answers.find? (fun p => p.1 = data) with
  | some p => p.2
  | none => []

/-- The zlib interface filled with the real CRC-32 and the recorded answers of
zlib 1.2.13.  Each of the recorded `deflate` calls ends with `avail_in = 0`.  The
runs below call the library only at recorded arguments. -/
def zlib_1_2_13 : Zlib where
  crc32 := crc32
  deflate := answer deflate_answers
  deflate_avail_in := fun _ _ => 0
  inflate := answer inflate_answers

/-- The container of `abc` with zlib 1.2.13: the payload of its only chunk is the
last eleven bytes, at offsets 34 to 44. -/
def abc_file : List UInt8 :=
  [77, 89, 67, 79, 77, 80, 1, 0, 0, 0, 0, 0, 0, 0, 3, 0, 0, 0, 0, 0, 0, 0,
   11, 0, 0, 0, 0, 0, 0, 0, 194, 65, 36, 53,
   120, 156, 75, 76, 74, 6, 0, 2, 77, 1, 39]

/-- The file `"abcabc"`. -/
def abc_abc : List UInt8 := [97, 98, 99, 97, 98, 99]

/-- The container of `abc_abc` cut into chunks of 3 bytes, with zlib 1.2.13: two
records of 31 bytes; the payload of the second is the last eleven bytes, at
offsets 65 to 75. -/
def abc_abc_file : List UInt8 :=
  [77, 89, 67, 79, 77, 80, 2, 0, 0, 0, 0, 0, 0, 0,
   3, 0, 0, 0, 0, 0, 0, 0, 11, 0, 0, 0, 0, 0, 0, 0, 194, 65, 36, 53,
   120, 156, 75, 76, 74, 6, 0, 2, 77, 1, 39,
   3, 0, 0, 0, 0, 0, 0, 0, 11, 0, 0, 0, 0, 0, 0, 0, 194, 65, 36, 53,
   120, 156, 75, 76, 74, 6, 0, 2, 77, 1, 39]

/-- The record of `abc` with zlib 1.2.13. -/
def abc_record : Record :=
  { original_size := 3, crc := 0x352441C2, payload := abc_stream }

/-- The record of `abc` with a wrong `original_size` field. -/
def abc_record_999 : Record :=
  { original_size := 999, crc := 0x352441C2, payload := abc_stream }

/-- The container that `compress_file` writes for `zeros200` with the small
codec. -/
def zeros200_file : List UInt8 :=
  [77, 89, 67, 79, 77, 80, 1, 0, 0, 0, 0, 0, 0, 0, 200, 0, 0, 0, 0, 0, 0, 0,
   5, 0, 0, 0, 0, 0, 0, 0, 118, 168, 113, 201, 1, 200, 0, 0, 0]

/-- The container that `compress_file` writes for `zeros200` with zlib 1.2.13. -/
def zeros200_container : List UInt8 :=
  [77, 89, 67, 79, 77, 80, 1, 0, 0, 0, 0, 0, 0, 0, 200, 0, 0, 0, 0, 0, 0, 0,
   12, 0, 0, 0, 0, 0, 0, 0, 118, 168, 113, 201,
   120, 156, 99, 96, 24, 30, 0, 0, 0, 200, 0, 1]

/-! ## Basic facts about the representation of integers and about streams -/
theorem toLE_length (n v : Nat) : (toLE n v).length = n := by
  induction n generalizing v with
  | zero => rfl
  | succ n ih => simp [toLE, ih]

theorem fromLE_toLE (n v : Nat) : fromLE (toLE n v) = v % 256 ^ n := by
  induction n generalizing v with
  | zero => simp [toLE, fromLE, Nat.mod_one]
  | succ n ih =>
    have h : (UInt8.ofNat (v % 256)).toNat = v % 256 := by
      simp [UInt8.ofNat, UInt8.toNat, Fin.ofNat, UInt8.size]
    simp only [toLE, fromLE, ih, h]
    rw [pow_succ, Nat.mul_comm (256 ^ n) 256, Nat.mod_mul]

theorem fromLE_toLE_of_lt {n v : Nat} (h : v < 256 ^ n) : fromLE (toLE n v) = v := by
  rw [fromLE_toLE, Nat.mod_eq_of_lt h]

theorem streamsize_of_lt {v : Nat} (h : v < 2 ^ 63) : streamsize v = (v : Int) := by
  have h2 : v % 2 ^ 64 = v := Nat.mod_eq_of_lt (by omega)
  unfold streamsize
  rw [h2, if_pos h]

theorem streamsize_neg {v : Nat} (h : 2 ^ 63 ≤ v) (h2 : v < 2 ^ 64) : streamsize v < 0 := by
  have h3 : v % 2 ^ 64 = v := Nat.mod_eq_of_lt h2
  have h4 : ¬ v < 2 ^ 63 := by omega
  unfold streamsize
  rw [h3, if_neg h4]
  have : (v : Int) < 2 ^ 64 := by exact_mod_cast h2
  omega

/-- A `read` of `n` bytes from a good stream holding at least `n` bytes. -/
theorem IStream.read_append (a b old : List UInt8) :
    IStream.read ⟨a ++ b, true⟩ old (a.length : Int)
      = (⟨b, true⟩, a ++ old.drop a.length, a.length) := by
  simp [IStream.read]

/-- A `read` that asks for more bytes than the good stream holds. -/
theorem IStream.read_short (d old : List UInt8) (n : Nat) (h : d.length < n) :
    IStream.read ⟨d, true⟩ old (n : Int)
      = (⟨[], false⟩, d ++ old.drop d.length, d.length) := by
  have h1 : List.take n d = d := List.take_of_length_le (by omega)
  have h2 : List.drop n d = [] := List.drop_of_length_le (by omega)
  have h3 : ¬ d.length = n := by omega
  simp [IStream.read, h1, h2, h3]

/-- A `read` with a negative count extracts nothing and fails the stream. -/
theorem IStream.read_neg (d old : List UInt8) (n : Int) (h : n < 0) :
    IStream.read ⟨d, true⟩ old n = (⟨d, false⟩, old, 0) := by
  have h1 : n.toNat = 0 := by omega
  have h2 : ¬ (0 : Int) = n := by omega
  simp [IStream.read, h1, h2]

theorem IStream.read_take (d old : List UInt8) (n : Nat) (h : n ≤ d.length) :
    IStream.read ⟨d, true⟩ old (n : Int)
      = (⟨d.drop n, true⟩, d.take n ++ old.drop n, n) := by
  have h1 : (List.take n d).length = n := by simp [h]
  simp [IStream.read, h1, h]

/-! ## Chunk arithmetic -/
theorem total_chunks_bounds {cs : Nat} (hcs : 0 < cs) (n : Nat) :
    n ≤ total_chunks cs n * cs ∧ (0 < n → (total_chunks cs n - 1) * cs < n ∧
      0 < total_chunks cs n) := by
  have hdm := Nat.div_add_mod n cs
  have hlt := Nat.mod_lt n hcs
  have hmul : cs * (n / cs) = n / cs * cs := Nat.mul_comm _ _
  unfold total_chunks
  by_cases hr : n % cs = 0
  · simp only [hr, ne_eq, not_true_eq_false, if_false]
    refine ⟨by omega, fun hn => ?_⟩
    have hq : 0 < n / cs := by
      rcases Nat.eq_zero_or_pos (n / cs) with h0 | h0
      · rw [h0] at hdm; omega
      · exact h0
    obtain ⟨q, hq'⟩ : ∃ q, n / cs = q + 1 := ⟨n / cs - 1, by omega⟩
    rw [hq'] at hdm hmul ⊢
    simp only [Nat.add_sub_cancel]
    have : (q + 1) * cs = q * cs + cs := by ring
    omega
  · simp only [ne_eq, hr, not_false_eq_true, if_true, Nat.add_sub_cancel]
    have h1 : (n / cs + 1) * cs = n / cs * cs + cs := by ring
    have h2 : 0 < n % cs := Nat.pos_of_ne_zero hr
    refine ⟨by omega, fun _ => ⟨by omega, Nat.succ_pos _⟩⟩

/-- The source's chunk count is the ceiling of `file_size / chunk_size`. -/
theorem total_chunks_eq_ceil {cs : Nat} (hcs : 0 < cs) (n : Nat) :
    total_chunks cs n = spec_chunk_count cs n := by
  unfold spec_chunk_count
  symm
  have hb := total_chunks_bounds hcs n
  have hcsQ : (0 : ℚ) < (cs : ℚ) := by exact_mod_cast hcs
  rcases Nat.eq_zero_or_pos n with h0 | hpos
  · subst h0
    simp [total_chunks]
  · have h1 := hb.1
    have h2 := (hb.2 hpos).1
    have h3 := (hb.2 hpos).2
    rw [Nat.ceil_eq_iff (by omega)]
    constructor
    · rw [lt_div_iff₀ hcsQ]
      have : ((total_chunks cs n - 1 : ℕ) : ℚ) * (cs : ℚ) < (n : ℚ) := by exact_mod_cast h2
      exact this
    · rw [div_le_iff₀ hcsQ]
      exact_mod_cast h1

/-- What one iteration of the first loop reads: the chunk of the specification. -/
theorem read_size_chunk {cs : Nat} (hcs : 0 < cs) (input : List UInt8) (i : Nat)
    (hi : i < total_chunks cs input.length) :
    let rs := read_size cs input.length (total_chunks cs input.length) i
    rs ≤ (input.drop (i * cs)).length ∧ rs ≤ cs ∧ 0 < rs ∧
      (input.drop (i * cs)).take rs = spec_chunk cs input i ∧
      (input.drop (i * cs)).drop rs = input.drop ((i + 1) * cs) ∧
      rs = (spec_chunk cs input i).length := by
  intro rs
  have hb := total_chunks_bounds hcs input.length
  have hn : 0 < input.length := by
    rcases Nat.eq_zero_or_pos input.length with h0 | h0
    · rw [h0] at hi; simp [total_chunks] at hi
    · exact h0
  have h1 := hb.1
  have h2 := (hb.2 hn).1
  have hlen : (input.drop (i * cs)).length = input.length - i * cs := by simp
  have hsucc : (i + 1) * cs = i * cs + cs := by ring
  by_cases hlast : i = total_chunks cs input.length - 1
  · have hrs : rs = input.length - i * cs := by simp [rs, read_size, hlast]
    have htc : total_chunks cs input.length * cs = i * cs + cs := by
      have : total_chunks cs input.length = i + 1 := by omega
      rw [this, hsucc]
    have hi2 : i * cs < input.length := by rw [hlast]; exact h2
    have hle : input.length - i * cs ≤ cs := by omega
    have htake : (input.drop (i * cs)).take rs = input.drop (i * cs) :=
      List.take_of_length_le (by omega)
    refine ⟨by omega, by omega, by omega, ?_, ?_, ?_⟩
    · rw [htake]; unfold spec_chunk
      exact (List.take_of_length_le (by omega)).symm
    · rw [List.drop_of_length_le (by omega), List.drop_of_length_le (by omega)]
    · unfold spec_chunk
      rw [List.take_of_length_le (by omega)]
      omega
  · have hrs : rs = cs := by simp [rs, read_size, hlast]
    have hi3 : i + 1 ≤ total_chunks cs input.length - 1 := by omega
    have hmul : (i + 1) * cs ≤ (total_chunks cs input.length - 1) * cs :=
      Nat.mul_le_mul_right cs hi3
    refine ⟨by omega, by omega, by omega, ?_, ?_, ?_⟩
    · rw [hrs]; rfl
    · rw [hrs, List.drop_drop, hsucc, Nat.add_comm]
    · unfold spec_chunk
      rw [List.length_take, hlen, hrs]
      omega

/-! ## Tasks and the environment -/
theorem fit_self (b : List UInt8) : fit b.length b = b := by
  unfold fit
  rw [List.take_append_of_le_length (Nat.le_refl _), List.take_of_length_le (Nat.le_refl _)]

theorem fit_length (n : Nat) (found : List UInt8) : (fit n found).length = n := by
  simp [fit]

theorem joined_map_some {α : Type} (xs : List α) : joined (xs.map some) = some xs := by
  induction xs with
  | nil => rfl
  | cons x xs ih => simp only [List.map_cons, joined, ih]

theorem joined_eq_some {α : Type} (l : List (Option α)) (xs : List α) :
    joined l = some xs ↔ l = xs.map some := by
  constructor
  · intro h
    induction l generalizing xs with
    | nil =>
      simp only [joined, Option.some.injEq] at h
      rw [← h]; rfl
    | cons a l ih =>
      cases a with
      | none => simp [joined] at h
      | some a =>
        cases hj : joined l with
        | none => simp [joined, hj] at h
        | some ys =>
          simp only [joined, hj, Option.some.injEq] at h
          rw [← h, List.map_cons, ih ys hj]
  · intro h
    rw [h, joined_map_some]

theorem joined_eq_none {α : Type} (l : List (Option α)) : joined l = none ↔ none ∈ l := by
  induction l with
  | nil => simp [joined]
  | cons a l ih =>
    cases a with
    | none => simp [joined]
    | some a =>
      cases hj : joined l with
      | none =>
        have := ih.mp hj
        simp [joined, hj, this]
      | some ys =>
        have hn : ¬ none ∈ l := fun hm => by
          have := ih.mpr hm
          rw [hj] at this
          cases this
        simp [joined, hj, hn]

theorem joined_append_some {α : Type} (xs : List α) (l : List (Option α)) :
    joined (xs.map some ++ l) = (joined l).map (fun ys => xs ++ ys) := by
  induction xs with
  | nil =>
    rw [List.map_nil, List.nil_append]
    cases joined l <;> rfl
  | cons x xs ih =>
    rw [List.map_cons, List.cons_append]
    show (match joined (xs.map some ++ l) with
      | some l => some (x :: l)
      | none => none) = _
    rw [ih]
    cases joined l <;> rfl

/-- A task of `compress_file` that reads its chunk before the vector is destroyed
computes `compress_chunk` of the chunk. -/
theorem compress_task_intact (Z : Zlib) (E : Env) (i : Nat) (chunk : List UInt8)
    (h : E.compress_view i chunk = some (chunk, chunk)) :
    compress_task Z E i chunk = some (compress_chunk Z i chunk) := by
  simp only [compress_task, h, fit_self, compress_chunk]

/-- A task of `compress_file` that does not fault returns a chunk whose
`original_size` is the length it was given and whose `compressed_size` is the
length of its payload, which is below `2 ^ 63`. -/
theorem compress_task_sizes (Z : Zlib) (E : Env) (i : Nat) (chunk : List UInt8) (c : ChunkData)
    (h : compress_task Z E i chunk = some c) :
    c.original_size = chunk.length ∧ c.compressed_size = c.compressed_data.length := by
  unfold compress_task at h
  cases hv : E.compress_view i chunk with
  | none => simp [hv] at h
  | some p =>
    obtain ⟨a, b⟩ := p
    simp only [hv, Option.some.injEq] at h
    rw [← h]
    exact ⟨rfl, rfl⟩

/-- A task of `decompress_file` that reads its payload before the vector is
destroyed computes `decompress_chunk` of the payload. -/
theorem decompress_task_intact (Z : Zlib) (E : Env) (i : Nat) (payload : List UInt8) (crc : Nat)
    (h : E.decompress_view i payload = some payload) :
    decompress_task Z E i payload crc = some (decompress_chunk Z i payload crc) := by
  simp only [decompress_task, h, fit_self]

/-! ## The first loop of `compress_file` -/
theorem IStream.read_chunk (d : List UInt8) (rs : Nat) (h : rs ≤ d.length) (h63 : rs < 2 ^ 63) :
    IStream.read ⟨d, true⟩ (List.replicate rs 0) (streamsize rs)
      = (⟨d.drop rs, true⟩, d.take rs, rs) := by
  rw [streamsize_of_lt h63, IStream.read_take d _ rs h]
  simp

theorem compress_dispatch_eq (Z : Zlib) (E : Env) {cs : Nat} (hcs : 0 < cs) (hcs2 : cs < 2 ^ 63)
    (input : List UInt8) :
    ∀ k i, i + k = total_chunks cs input.length →
      compress_dispatch Z E cs input.length (total_chunks cs input.length) k i
          ⟨input.drop (i * cs), true⟩
        = (⟨input.drop ((i + k) * cs), true⟩,
           (List.range' i k).map (fun j => compress_task Z E j (spec_chunk cs input j)), none) := by
  intro k
  induction k with
  | zero => intro i _; simp [compress_dispatch]
  | succ k ih =>
    intro i hi
    obtain ⟨h1, h2, _, h4, h5, _⟩ := read_size_chunk hcs input i (by omega)
    have h63 : read_size cs input.length (total_chunks cs input.length) i < 2 ^ 63 := by omega
    have hrec := ih (i + 1) (by omega)
    simp only [compress_dispatch]
    rw [IStream.read_chunk _ _ h1 h63, streamsize_of_lt h63]
    simp only [ne_eq, not_true_eq_false, if_false, h4, h5, hrec]
    simp [List.range'_succ, Nat.add_assoc, Nat.add_comm 1 k]

/-! ## The output of `compress_file` -/
theorem chunk_size_pos : 0 < chunk_size := by decide

theorem chunk_size_lt : chunk_size < 2 ^ 63 := by decide

theorem write_chunk_compress_chunk (Z : Zlib) (cs : Nat) (input : List UInt8) (j : Nat) :
    write_chunk (compress_chunk Z j (spec_chunk cs input j)) = (spec_record Z cs input j).bytes := by
  simp [write_chunk, compress_chunk, spec_record, Record.bytes, List.append_assoc]

theorem compress_collect_map (Z : Zlib) (cs : Nat) (input : List UInt8) (l : List Nat) :
    compress_collect (l.map (fun j => compress_chunk Z j (spec_chunk cs input j)))
      = records_bytes (l.map (spec_record Z cs input)) := by
  induction l with
  | nil => rfl
  | cons j l ih =>
    simp only [List.map_cons, compress_collect, records_bytes, ih, write_chunk_compress_chunk]

/-- The second loop of `compress_file` writes one record per chunk. -/
theorem compress_collect_records (chunks : List ChunkData)
    (h : ∀ c ∈ chunks, c.compressed_size = c.compressed_data.length) :
    compress_collect chunks = records_bytes (chunks.map ChunkData.record) := by
  induction chunks with
  | nil => rfl
  | cons c cs ih =>
    have hc := h c (List.mem_cons_self _ _)
    have hcs : ∀ x ∈ cs, x.compressed_size = x.compressed_data.length :=
      fun x hx => h x (List.mem_cons_of_mem _ hx)
    simp only [List.map_cons, compress_collect, records_bytes, ih hcs, write_chunk, Record.bytes,
      ChunkData.record, hc, List.append_assoc]

theorem spec_records_length (Z : Zlib) {cs : Nat} (hcs : 0 < cs) (input : List UInt8) :
    (spec_records Z cs input).length = total_chunks cs input.length := by
  simp [spec_records, total_chunks_eq_ceil hcs]

/-- The run of `compress_file` for any chunk size and environment: it is killed
when a task faults; otherwise no exception leaves it, the whole input is read,
one task per chunk is started, and the header and what the tasks returned are
written. -/
theorem compress_file_with_run (Z : Zlib) (E : Env) {cs : Nat} (hcs : 0 < cs)
    (hcs2 : cs < 2 ^ 63) (input : List UInt8) :
    compress_file_with Z E cs input
      = (match joined ((List.range (total_chunks cs input.length)).map
            (fun j => compress_task Z E j (spec_chunk cs input j))) with
        | none => killed_run
        | some chunks =>
          { error := none, consumed := input.length,
            dispatched := total_chunks cs input.length,
            outfile := some (MYCOMP ++ (toLE 8 (total_chunks cs input.length)
              ++ compress_collect chunks)) }) := by
  have h := compress_dispatch_eq Z E hcs hcs2 input (total_chunks cs input.length) 0 (by simp)
  simp only [Nat.zero_mul, List.drop_zero, Nat.zero_add] at h
  have hend : input.drop (total_chunks cs input.length * cs) = [] :=
    List.drop_of_length_le (total_chunks_bounds hcs input.length).1
  unfold compress_file_with
  simp only [h, hend, ← List.range_eq_range']
  cases joined ((List.range (total_chunks cs input.length)).map
      (fun j => compress_task Z E j (spec_chunk cs input j))) with
  | none => rfl
  | some chunks =>
    simp only [List.length_nil, Nat.sub_zero, List.length_map, List.length_range,
      List.append_assoc]

/-- The run of `compress_file` when every task reads its chunk before the vector
is destroyed: the container of the specification is written. -/
theorem compress_file_with_eq (Z : Zlib) (E : Env) {cs : Nat} (hcs : 0 < cs)
    (hcs2 : cs < 2 ^ 63) (input : List UInt8)
    (hv : ∀ j < total_chunks cs input.length,
      E.compress_view j (spec_chunk cs input j)
        = some (spec_chunk cs input j, spec_chunk cs input j)) :
    compress_file_with Z E cs input
      = { error := none, consumed := input.length,
          dispatched := total_chunks cs input.length,
          outfile := some (container (spec_records Z cs input)) } := by
  have hmap : (List.range (total_chunks cs input.length)).map
        (fun j => compress_task Z E j (spec_chunk cs input j))
      = ((List.range (total_chunks cs input.length)).map
        (fun j => compress_chunk Z j (spec_chunk cs input j))).map some := by
    rw [List.map_map]
    apply List.map_congr_left
    intro j hj
    exact compress_task_intact Z E j _ (hv j (List.mem_range.mp hj))
  rw [compress_file_with_run Z E hcs hcs2, hmap, joined_map_some]
  simp only [compress_collect_map, container, spec_records, ← total_chunks_eq_ceil hcs,
    List.length_map, List.length_range]

theorem compress_futures_eq (Z : Zlib) (E : Env) (input : List UInt8) :
    compress_futures Z E input
      = (List.range (total_chunks chunk_size input.length)).map
          (fun j => compress_task Z E j (spec_chunk chunk_size input j)) := by
  have h := compress_dispatch_eq Z E chunk_size_pos chunk_size_lt input
    (total_chunks chunk_size input.length) 0 (by simp)
  simp only [Nat.zero_mul, List.drop_zero, Nat.zero_add] at h
  unfold compress_futures
  rw [h, List.range_eq_range']

/-! ## Reading a container -/
theorem strncmp_magic (m : List UInt8) (hm : m.length = 6) :
    strncmp m MYCOMP 6 = 0 ↔ m = MYCOMP := by
  match m, hm with
  | [a, b, c, d, e, f], _ =>
    have key : ∀ (x y : UInt8), x ≠ y → (x.toNat : Int) - (y.toNat : Int) ≠ 0 := by
      intro x y hxy h
      apply hxy
      have : x.toNat = y.toNat := by omega
      exact UInt8.ext this
    constructor
    · intro h
      simp only [strncmp, MYCOMP, List.headD_cons, List.tail_cons] at h
      by_cases ha : a = 77
      · by_cases hb : b = 89
        · by_cases hc : c = 67
          · by_cases hd : d = 79
            · by_cases he : e = 77
              · by_cases hf : f = 80
                · subst ha hb hc hd he hf; rfl
                · subst ha hb hc hd he
                  simp [hf] at h
                  exact absurd h (key _ _ hf)
              · subst ha hb hc hd
                simp [he] at h
                exact absurd h (key _ _ he)
            · subst ha hb hc
              simp [hd] at h
              exact absurd h (key _ _ hd)
          · subst ha hb
            simp [hc] at h
            exact absurd h (key _ _ hc)
        · subst ha
          simp [hb] at h
          exact absurd h (key _ _ hb)
      · simp [ha] at h
        exact absurd h (key _ _ ha)
    · intro h
      rw [h]
      decide

/-- A `read` of exactly the bytes at the front of a good stream into a buffer
that is no longer than the request. -/
theorem IStream.read_exact (a b old : List UInt8) (n : Int) (hn : n = (a.length : Int))
    (hold : old.length ≤ a.length) :
    IStream.read ⟨a ++ b, true⟩ old n = (⟨b, true⟩, a, a.length) := by
  subst hn
  rw [IStream.read_append, List.drop_of_length_le hold, List.append_nil]

theorem vector_alloc_lt {heap n : Nat} (h : vector_alloc heap 1 n = none) : n < 2 ^ 63 := by
  unfold vector_alloc at h
  by_cases h1 : n > (2 ^ 63 - 1) / 1
  · rw [if_pos h1] at h; cases h
  · rw [Nat.div_one] at h1
    omega

theorem vector_alloc_future_lt {heap n : Nat} (h : vector_alloc heap sizeof_future n = none) :
    n < 2 ^ 64 := by
  unfold vector_alloc at h
  by_cases h1 : n > (2 ^ 63 - 1) / sizeof_future
  · rw [if_pos h1] at h; cases h
  · have : (2 ^ 63 - 1) / sizeof_future < 2 ^ 64 := by decide
    omega

/-- One iteration of the first loop of `decompress_file` on a record that is
completely present and whose payload vector can be constructed. -/
theorem decompress_dispatch_record (Z : Zlib) (E : Env) (J : Junk) (r : Record) (k i : Nat)
    (rest : List UInt8) (ha : vector_alloc E.heap 1 r.payload.length = none) :
    decompress_dispatch Z E J (k + 1) i ⟨r.bytes ++ rest, true⟩
      = ((decompress_dispatch Z E J k (i + 1) ⟨rest, true⟩).1,
         decompress_task Z E i r.payload (r.crc % 2 ^ 32)
           :: (decompress_dispatch Z E J k (i + 1) ⟨rest, true⟩).2.1,
         (decompress_dispatch Z E J k (i + 1) ⟨rest, true⟩).2.2) := by
  have hp : r.payload.length < 2 ^ 63 := vector_alloc_lt ha
  have hlen : fromLE (toLE 8 r.payload.length) = r.payload.length :=
    fromLE_toLE_of_lt (by norm_num; omega)
  have hcrc : fromLE (toLE 4 r.crc) = r.crc % 2 ^ 32 := by
    rw [fromLE_toLE]; norm_num
  have hs : streamsize r.payload.length = (r.payload.length : Int) := streamsize_of_lt hp
  simp only [decompress_dispatch, Record.bytes, List.append_assoc]
  rw [IStream.read_exact (toLE 8 r.original_size) _ _ 8 (by simp [toLE_length])
    (by simp [toLE_length])]
  simp only []
  rw [IStream.read_exact (toLE 8 r.payload.length) _ _ 8 (by simp [toLE_length])
    (by simp [toLE_length])]
  simp only []
  rw [IStream.read_exact (toLE 4 r.crc) _ _ 4 (by simp [toLE_length])
    (by simp [toLE_length])]
  simp only []
  have ht8 : (toLE 8 r.payload.length).take 8 = toLE 8 r.payload.length :=
    List.take_of_length_le (by simp [toLE_length])
  have ht4 : (toLE 4 r.crc).take 4 = toLE 4 r.crc :=
    List.take_of_length_le (by simp [toLE_length])
  rw [ht8, ht4, hlen, hcrc, hs, ha]
  simp only []
  rw [IStream.read_exact r.payload rest _ _ rfl (by simp)]
  simp

/-- An iteration of the first loop of `decompress_file` on a record whose fields
are present and whose payload vector cannot be constructed. -/
theorem decompress_dispatch_alloc (Z : Zlib) (E : Env) (J : Junk) (os csz crc k i : Nat)
    (tail : List UInt8) (e : Error) (hcsz : csz < 2 ^ 64)
    (ha : vector_alloc E.heap 1 csz = some e) :
    decompress_dispatch Z E J (k + 1) i
        ⟨toLE 8 os ++ (toLE 8 csz ++ (toLE 4 crc ++ tail)), true⟩
      = (⟨tail, true⟩, [], some e) := by
  have hlen : fromLE (toLE 8 csz) = csz := fromLE_toLE_of_lt (by norm_num; omega)
  have ht8 : (toLE 8 csz).take 8 = toLE 8 csz :=
    List.take_of_length_le (by simp [toLE_length])
  simp only [decompress_dispatch]
  rw [IStream.read_exact (toLE 8 os) _ _ 8 (by simp [toLE_length]) (by simp [toLE_length])]
  simp only []
  rw [IStream.read_exact (toLE 8 csz) _ _ 8 (by simp [toLE_length]) (by simp [toLE_length])]
  simp only []
  rw [IStream.read_exact (toLE 4 crc) _ _ 4 (by simp [toLE_length]) (by simp [toLE_length])]
  simp only []
  rw [ht8, hlen, ha]

theorem decompress_futures_length (Z : Zlib) (E : Env) (i : Nat) (recs : List Record) :
    (decompress_futures Z E i recs).length = recs.length := by
  induction recs generalizing i with
  | nil => rfl
  | cons r rs ih => simp [decompress_futures, ih]

theorem decompress_futures_append (Z : Zlib) (E : Env) (i : Nat) (a b : List Record) :
    decompress_futures Z E i (a ++ b)
      = decompress_futures Z E i a ++ decompress_futures Z E (i + a.length) b := by
  induction a generalizing i with
  | nil => rfl
  | cons r rs ih =>
    have hidx : i + 1 + rs.length = i + (r :: rs).length := by
      simp only [List.length_cons]; omega
    rw [List.cons_append]
    show _ :: decompress_futures Z E (i + 1) (rs ++ b)
      = (_ :: decompress_futures Z E (i + 1) rs) ++ _
    rw [ih (i + 1), hidx, List.cons_append]

/-- The first loop of `decompress_file` on a run of completely present records
whose payload vectors can be constructed: their tasks are created and the loop
goes on behind them. -/
theorem decompress_dispatch_records (Z : Zlib) (E : Env) (J : Junk) (recs : List Record)
    (k i : Nat) (rest : List UInt8)
    (ha : ∀ r ∈ recs, vector_alloc E.heap 1 r.payload.length = none) :
    decompress_dispatch Z E J (recs.length + k) i ⟨records_bytes recs ++ rest, true⟩
      = ((decompress_dispatch Z E J k (i + recs.length) ⟨rest, true⟩).1,
         decompress_futures Z E i recs
           ++ (decompress_dispatch Z E J k (i + recs.length) ⟨rest, true⟩).2.1,
         (decompress_dispatch Z E J k (i + recs.length) ⟨rest, true⟩).2.2) := by
  induction recs generalizing i with
  | nil => simp [records_bytes, decompress_futures]
  | cons r rs ih =>
    have hr := ha r (List.mem_cons_self _ _)
    have hrs : ∀ x ∈ rs, vector_alloc E.heap 1 x.payload.length = none :=
      fun x hx => ha x (List.mem_cons_of_mem _ hx)
    have hk : (r :: rs).length + k = (rs.length + k) + 1 := by simp; omega
    have hi : i + (r :: rs).length = i + 1 + rs.length := by simp; omega
    rw [hk, hi]
    simp only [records_bytes, List.append_assoc]
    rw [decompress_dispatch_record Z E J r _ i _ hr, ih (i + 1) hrs]
    simp [decompress_futures]

/-- An iteration of the first loop of `decompress_file` on a record whose fields
are present but whose payload is shorter than the stated `compressed_size`. -/
theorem decompress_dispatch_short (Z : Zlib) (E : Env) (J : Junk) (os csz crc k i : Nat)
    (tail : List UInt8) (ha : vector_alloc E.heap 1 csz = none) (hshort : tail.length < csz) :
    (decompress_dispatch Z E J (k + 1) i
        ⟨toLE 8 os ++ (toLE 8 csz ++ (toLE 4 crc ++ tail)), true⟩).2
      = ([], some Error.readCompressed) := by
  have h63 : csz < 2 ^ 63 := vector_alloc_lt ha
  have hlen : fromLE (toLE 8 csz) = csz := fromLE_toLE_of_lt (by norm_num; omega)
  have ht8 : (toLE 8 csz).take 8 = toLE 8 csz :=
    List.take_of_length_le (by simp [toLE_length])
  simp only [decompress_dispatch]
  rw [IStream.read_exact (toLE 8 os) _ _ 8 (by simp [toLE_length]) (by simp [toLE_length])]
  simp only []
  rw [IStream.read_exact (toLE 8 csz) _ _ 8 (by simp [toLE_length]) (by simp [toLE_length])]
  simp only []
  rw [IStream.read_exact (toLE 4 crc) _ _ 4 (by simp [toLE_length]) (by simp [toLE_length])]
  simp only []
  rw [ht8, hlen, ha]
  simp only []
  rw [streamsize_of_lt h63, IStream.read_short tail _ csz hshort]
  have : ¬ tail.length = csz := by omega
  simp [this]

/-- Start of `decompress_file` on a file that begins with the magic and a
complete `chunk_count` field for which the vector of futures cannot be
constructed. -/
theorem decompress_file_header_alloc (Z : Zlib) (E : Env) (J : Junk) (h8 body : List UInt8)
    (e : Error) (hh : h8.length = 8)
    (ha : vector_alloc E.heap sizeof_future (fromLE h8) = some e) :
    decompress_file Z E J (MYCOMP ++ (h8 ++ body))
      = { error := some e, consumed := 14, dispatched := 0, outfile := some [] } := by
  have ht8 : h8.take 8 = h8 := List.take_of_length_le (by omega)
  have hm : strncmp ((MYCOMP ++ J.magic.drop 6).take 6) MYCOMP 6 = 0 := by
    have : (MYCOMP ++ J.magic.drop 6).take 6 = MYCOMP := by
      rw [List.take_append_of_le_length (by decide)]; rfl
    rw [this]; decide
  have h1 : IStream.read ⟨MYCOMP ++ (h8 ++ body), true⟩ J.magic 6
      = (⟨h8 ++ body, true⟩, MYCOMP ++ J.magic.drop 6, 6) :=
    IStream.read_append MYCOMP _ J.magic
  have h2 : IStream.read ⟨h8 ++ body, true⟩ (toLE 8 J.total_chunks) 8
      = (⟨body, true⟩, h8, 8) := by
    rw [IStream.read_exact h8 _ _ 8 (by simp [hh]) (by simp [toLE_length, hh])]
    simp [hh]
  have hc : (MYCOMP ++ (h8 ++ body)).length - body.length = 14 := by
    simp only [List.length_append, hh, MYCOMP, List.length_cons, List.length_nil]
    omega
  generalize hg : fromLE h8 = tc at ha
  unfold decompress_file
  simp only [h1, h2, hm, ht8, hg, ha, hc, ne_eq, not_true_eq_false, if_false]

/-- Start of `decompress_file` on a file that begins with the magic and a
complete `chunk_count` field for which the vector of futures can be
constructed. -/
theorem decompress_file_header (Z : Zlib) (E : Env) (J : Junk) (h8 body : List UInt8)
    (hh : h8.length = 8) (ha : vector_alloc E.heap sizeof_future (fromLE h8) = none) :
    decompress_file Z E J (MYCOMP ++ (h8 ++ body))
      = (match joined (decompress_dispatch Z E J (fromLE h8) 0 ⟨body, true⟩).2.1 with
        | none => killed_run
        | some results =>
          match (decompress_dispatch Z E J (fromLE h8) 0 ⟨body, true⟩).2.2 with
          | some e =>
            { error := some e,
              consumed := (MYCOMP ++ (h8 ++ body)).length
                - (decompress_dispatch Z E J (fromLE h8) 0 ⟨body, true⟩).1.data.length,
              dispatched := (decompress_dispatch Z E J (fromLE h8) 0 ⟨body, true⟩).2.1.length,
              outfile := some [] }
          | none =>
            { error := (decompress_collect results).2,
              consumed := (MYCOMP ++ (h8 ++ body)).length
                - (decompress_dispatch Z E J (fromLE h8) 0 ⟨body, true⟩).1.data.length,
              dispatched := (decompress_dispatch Z E J (fromLE h8) 0 ⟨body, true⟩).2.1.length,
              outfile := some (decompress_collect results).1 }) := by
  have ht8 : h8.take 8 = h8 := List.take_of_length_le (by omega)
  have hm : strncmp ((MYCOMP ++ J.magic.drop 6).take 6) MYCOMP 6 = 0 := by
    have : (MYCOMP ++ J.magic.drop 6).take 6 = MYCOMP := by
      rw [List.take_append_of_le_length (by decide)]; rfl
    rw [this]; decide
  have h1 : IStream.read ⟨MYCOMP ++ (h8 ++ body), true⟩ J.magic 6
      = (⟨h8 ++ body, true⟩, MYCOMP ++ J.magic.drop 6, 6) :=
    IStream.read_append MYCOMP _ J.magic
  have h2 : IStream.read ⟨h8 ++ body, true⟩ (toLE 8 J.total_chunks) 8
      = (⟨body, true⟩, h8, 8) := by
    rw [IStream.read_exact h8 _ _ 8 (by simp [hh]) (by simp [toLE_length, hh])]
    simp [hh]
  generalize hg : fromLE h8 = tc at ha
  unfold decompress_file
  simp only [h1, h2, hm, ht8, hg, ha, ne_eq, not_true_eq_false, if_false]

/-! ## The second loop of `decompress_file` -/
theorem decompress_chunk_of_checks (Z : Zlib) (i : Nat) (r : Record) (h : r.checks Z) :
    decompress_chunk Z i r.payload (r.crc % 2 ^ 32) = .ok (decompress_with_zlib Z r.payload) := by
  unfold Record.checks at h
  show (if compute_crc Z (decompress_with_zlib Z r.payload) ≠ r.crc % 2 ^ 32 then _ else _) = _
  rw [if_neg (not_not.mpr h)]

theorem decompress_chunk_of_not_checks (Z : Zlib) (i : Nat) (r : Record) (h : ¬ r.checks Z) :
    decompress_chunk Z i r.payload (r.crc % 2 ^ 32) = .error (.crcMismatch i) := by
  unfold Record.checks at h
  show (if compute_crc Z (decompress_with_zlib Z r.payload) ≠ r.crc % 2 ^ 32 then _ else _) = _
  rw [if_pos h]

/-- What `decompress_chunk` returns: the integrity error of its index, or the
decoded bytes, whose checksum is then the one it was given. -/
theorem decompress_chunk_cases (Z : Zlib) (i : Nat) (payload : List UInt8) (c : Nat) :
    decompress_chunk Z i payload c = .error (.crcMismatch i) ∨
    (decompress_chunk Z i payload c = .ok (decompress_with_zlib Z payload) ∧
      compute_crc Z (decompress_with_zlib Z payload) = c) := by
  by_cases h : compute_crc Z (decompress_with_zlib Z payload) = c
  · right
    refine ⟨?_, h⟩
    show (if compute_crc Z (decompress_with_zlib Z payload) ≠ c then _ else _) = _
    rw [if_neg (not_not.mpr h)]
  · left
    show (if compute_crc Z (decompress_with_zlib Z payload) ≠ c then _ else _) = _
    rw [if_pos h]

/-- What a task of `decompress_file` that did not fault returns. -/
theorem decompress_task_some (Z : Zlib) (E : Env) (i : Nat) (payload : List UInt8) (c : Nat)
    (x : Except Error (List UInt8)) (h : decompress_task Z E i payload c = some x) :
    ∃ found, E.decompress_view i payload = some found ∧
      x = decompress_chunk Z i (fit payload.length found) c := by
  unfold decompress_task at h
  cases hv : E.decompress_view i payload with
  | none => simp [hv] at h
  | some found =>
    simp only [hv, Option.some.injEq] at h
    exact ⟨found, rfl, h.symm⟩

/-- When every record passes its check the second loop writes all decoded chunks. -/
theorem decompress_collect_ok (Z : Zlib) (i : Nat) (recs : List Record)
    (h : ∀ r ∈ recs, r.checks Z) :
    decompress_collect (decompress_tasks Z i recs) = (decoded_bytes Z recs, none) := by
  induction recs generalizing i with
  | nil => rfl
  | cons r rs ih =>
    have hr := h r (List.mem_cons_self _ _)
    have hrs : ∀ x ∈ rs, x.checks Z := fun x hx => h x (List.mem_cons_of_mem _ hx)
    simp only [decompress_tasks, decompress_chunk_of_checks Z i r hr, decompress_collect,
      ih (i + 1) hrs, decoded_bytes]

/-- The second loop stops at the first task that threw: the chunks before it are
written, nothing of it or of a later chunk is. -/
theorem decompress_collect_stop (Z : Zlib) (i : Nat) (pre : List Record) (e : Error)
    (tail : List (Except Error (List UInt8))) (hpre : ∀ x ∈ pre, x.checks Z) :
    decompress_collect (decompress_tasks Z i pre ++ .error e :: tail)
      = (decoded_bytes Z pre, some e) := by
  induction pre generalizing i with
  | nil =>
    simp only [List.nil_append, decompress_tasks, decompress_collect, decoded_bytes]
  | cons x xs ih =>
    have hx := hpre x (List.mem_cons_self _ _)
    have hxs : ∀ y ∈ xs, y.checks Z := fun y hy => hpre y (List.mem_cons_of_mem _ hy)
    have ih1 := ih (i + 1) hxs
    show decompress_collect ((decompress_chunk Z i x.payload (x.crc % 2 ^ 32)
      :: decompress_tasks Z (i + 1) xs) ++ .error e :: tail) = _
    rw [decompress_chunk_of_checks Z i x hx, List.cons_append]
    simp only [decompress_collect]
    rw [ih1]
    simp only [decoded_bytes]

/-- The second loop passes the records that check and goes on behind them. -/
theorem decompress_collect_pass (Z : Zlib) (i : Nat) (pre : List Record)
    (tail : List (Except Error (List UInt8))) (hpre : ∀ x ∈ pre, x.checks Z) :
    decompress_collect (decompress_tasks Z i pre ++ tail)
      = (decoded_bytes Z pre ++ (decompress_collect tail).1, (decompress_collect tail).2) := by
  induction pre generalizing i with
  | nil =>
    simp only [List.nil_append, decompress_tasks, decoded_bytes]
  | cons x xs ih =>
    have hx := hpre x (List.mem_cons_self _ _)
    have hxs : ∀ y ∈ xs, y.checks Z := fun y hy => hpre y (List.mem_cons_of_mem _ hy)
    have ih1 := ih (i + 1) hxs
    show decompress_collect ((decompress_chunk Z i x.payload (x.crc % 2 ^ 32)
      :: decompress_tasks Z (i + 1) xs) ++ tail) = _
    rw [decompress_chunk_of_checks Z i x hx, List.cons_append]
    simp only [decompress_collect]
    rw [ih1]
    simp only [decoded_bytes, List.append_assoc]

/-- The second loop stops at the first record that fails its check. -/
theorem decompress_collect_fail (Z : Zlib) (i : Nat) (pre : List Record) (r : Record)
    (post : List Record) (hpre : ∀ x ∈ pre, x.checks Z) (hr : ¬ r.checks Z) :
    decompress_collect (decompress_tasks Z i (pre ++ r :: post))
      = (decoded_bytes Z pre, some (.crcMismatch (i + pre.length))) := by
  have hsplit : decompress_tasks Z i (pre ++ r :: post)
      = decompress_tasks Z i pre ++ .error (.crcMismatch (i + pre.length))
          :: decompress_tasks Z (i + pre.length + 1) post := by
    induction pre generalizing i with
    | nil =>
      simp only [List.nil_append, decompress_tasks, decompress_chunk_of_not_checks Z i r hr,
        List.length_nil, Nat.add_zero]
    | cons x xs ih =>
      have hxs : ∀ y ∈ xs, y.checks Z := fun y hy => hpre y (List.mem_cons_of_mem _ hy)
      have hidx : i + 1 + xs.length = i + (x :: xs).length := by
        simp only [List.length_cons]; omega
      rw [List.cons_append]
      show _ :: decompress_tasks Z (i + 1) (xs ++ r :: post)
        = (_ :: decompress_tasks Z (i + 1) xs) ++ _
      rw [ih (i + 1) hxs, hidx, List.cons_append]
  rw [hsplit, decompress_collect_stop Z i pre _ _ hpre]

/-- An exception that leaves the second loop is the integrity error of some
chunk index in range. -/
theorem decompress_futures_error (Z : Zlib) (E : Env) (i : Nat) (recs : List Record)
    (xs : List (Except Error (List UInt8))) (e : Error)
    (hj : joined (decompress_futures Z E i recs) = some xs)
    (h : (decompress_collect xs).2 = some e) :
    ∃ j, e = .crcMismatch j ∧ i ≤ j ∧ j < i + recs.length := by
  induction recs generalizing i xs with
  | nil =>
    simp only [decompress_futures, joined, Option.some.injEq] at hj
    rw [← hj] at h
    simp [decompress_collect] at h
  | cons r rs ih =>
    have hj2 := (joined_eq_some _ _).mp hj
    cases xs with
    | nil => simp [decompress_futures] at hj2
    | cons x xs =>
      simp only [decompress_futures, List.map_cons, List.cons.injEq] at hj2
      obtain ⟨found, _, hx⟩ := decompress_task_some Z E i _ _ x hj2.1
      have hrest := (joined_eq_some _ _).mpr hj2.2
      rcases decompress_chunk_cases Z i (fit r.payload.length found) (r.crc % 2 ^ 32) with hc | hc
      · rw [hx, hc] at h
        simp only [decompress_collect, Option.some.injEq] at h
        exact ⟨i, h.symm, Nat.le_refl _, by simp only [List.length_cons]; omega⟩
      · rw [hx, hc.1] at h
        simp only [decompress_collect] at h
        obtain ⟨j, hj3, h1, h2⟩ := ih (i + 1) xs hrest h
        exact ⟨j, hj3, by omega, by simp only [List.length_cons]; omega⟩

theorem decompress_tasks_length (Z : Zlib) (i : Nat) (recs : List Record) :
    (decompress_tasks Z i recs).length = recs.length := by
  induction recs generalizing i with
  | nil => rfl
  | cons r rs ih => simp [decompress_tasks, ih]

/-- Tasks that read their payloads before the vectors are destroyed compute
`decompress_chunk` of the payloads. -/
theorem decompress_futures_intact (Z : Zlib) (E : Env) (i : Nat) (recs : List Record)
    (hv : ∀ j r, recs[j]? = some r → E.decompress_view (i + j) r.payload = some r.payload) :
    decompress_futures Z E i recs = (decompress_tasks Z i recs).map some := by
  induction recs generalizing i with
  | nil => rfl
  | cons r rs ih =>
    have h0 := hv 0 r (List.getElem?_cons_zero ..)
    rw [Nat.add_zero] at h0
    have hrs : ∀ j x, rs[j]? = some x → E.decompress_view (i + 1 + j) x.payload
        = some x.payload := by
      intro j x hx
      have := hv (j + 1) x (by simpa using hx)
      rw [show i + 1 + j = i + (j + 1) by omega]
      exact this
    simp only [decompress_futures, decompress_tasks, List.map_cons, ih (i + 1) hrs,
      decompress_task_intact Z E i r.payload _ h0]

/-- Tasks that do not fault can all be joined. -/
theorem decompress_futures_joined (Z : Zlib) (E : Env) (i : Nat) (recs : List Record)
    (hv : ∀ j r, recs[j]? = some r → E.decompress_view (i + j) r.payload ≠ none) :
    ∃ xs, joined (decompress_futures Z E i recs) = some xs := by
  cases hj : joined (decompress_futures Z E i recs) with
  | some xs => exact ⟨xs, rfl⟩
  | none =>
    exfalso
    have hmem := (joined_eq_none _).mp hj
    clear hj
    induction recs generalizing i with
    | nil => simp [decompress_futures] at hmem
    | cons r rs ih =>
      simp only [decompress_futures, List.mem_cons] at hmem
      rcases hmem with h | h
      · have h0 := hv 0 r (List.getElem?_cons_zero ..)
        rw [Nat.add_zero] at h0
        unfold decompress_task at h
        cases hview : E.decompress_view i r.payload with
        | none => exact h0 hview
        | some found => simp [hview] at h
      · apply ih (i + 1) _ h
        intro j x hx
        have := hv (j + 1) x (by simpa using hx)
        rw [show i + 1 + j = i + (j + 1) by omega]
        exact this

/-! ## `decompress_file` on a container -/

/-- The run of `decompress_file` on a container whose records are all present
and whose vectors can be constructed, whatever follows the last record. -/
theorem decompress_file_container (Z : Zlib) (E : Env) (J : Junk) (recs : List Record)
    (rest : List UInt8) (hfa : vector_alloc E.heap sizeof_future recs.length = none)
    (ha : ∀ r ∈ recs, vector_alloc E.heap 1 r.payload.length = none) :
    decompress_file Z E J (container recs ++ rest)
      = (match joined (decompress_futures Z E 0 recs) with
        | none => killed_run
        | some results =>
          { error := (decompress_collect results).2,
            consumed := (container recs).length,
            dispatched := recs.length,
            outfile := some (decompress_collect results).1 }) := by
  have hlen : recs.length < 2 ^ 64 := vector_alloc_future_lt hfa
  have hfrom : fromLE (toLE 8 recs.length) = recs.length :=
    fromLE_toLE_of_lt (by norm_num; omega)
  have hd := decompress_dispatch_records Z E J recs 0 0 rest ha
  simp only [Nat.add_zero, Nat.zero_add, decompress_dispatch, List.append_nil] at hd
  have hshape : container recs ++ rest
      = MYCOMP ++ (toLE 8 recs.length ++ (records_bytes recs ++ rest)) := by
    simp [container, List.append_assoc]
  have hcons : MYCOMP.length + ((toLE 8 recs.length).length
      + ((records_bytes recs).length + rest.length)) - rest.length
      = MYCOMP.length + ((toLE 8 recs.length).length + (records_bytes recs).length) := by
    omega
  rw [hshape, decompress_file_header Z E J _ _ (toLE_length 8 _) (by rw [hfrom]; exact hfa),
    hfrom, hd]
  cases joined (decompress_futures Z E 0 recs) with
  | none => rfl
  | some results =>
    simp only [decompress_futures_length, List.length_append, container, hcons]

/-- The run of `decompress_file` on a container when every task reads its payload
before the vector is destroyed. -/
theorem decompress_file_container_intact (Z : Zlib) (E : Env) (J : Junk) (recs : List Record)
    (rest : List UInt8) (hfa : vector_alloc E.heap sizeof_future recs.length = none)
    (ha : ∀ r ∈ recs, vector_alloc E.heap 1 r.payload.length = none)
    (hv : ∀ j r, recs[j]? = some r → E.decompress_view j r.payload = some r.payload) :
    decompress_file Z E J (container recs ++ rest)
      = { error := (decompress_collect (decompress_tasks Z 0 recs)).2,
          consumed := (container recs).length,
          dispatched := recs.length,
          outfile := some (decompress_collect (decompress_tasks Z 0 recs)).1 } := by
  have hf := decompress_futures_intact Z E 0 recs (by
    intro j r hr
    rw [Nat.zero_add]
    exact hv j r hr)
  rw [decompress_file_container Z E J recs rest hfa ha, hf, joined_map_some]

/-! ## The small codec meets the contract of zlib -/
theorem rlz_runs_counts (data : List UInt8) :
    ∀ p ∈ rlz_runs data, 1 ≤ p.1 ∧ p.1 ≤ 255 := by
  induction data with
  | nil => simp [rlz_runs]
  | cons b rest ih =>
    intro p hp
    unfold rlz_runs at hp
    cases hr : rlz_runs rest with
    | nil =>
      rw [hr] at hp
      simp only [List.mem_singleton] at hp
      subst hp
      exact ⟨Nat.le_refl _, by simp⟩
    | cons q t =>
      obtain ⟨c, b₁⟩ := q
      rw [hr] at hp ih
      have hq := ih (c, b₁) (List.mem_cons_self _ _)
      have ht : ∀ x ∈ t, 1 ≤ x.1 ∧ x.1 ≤ 255 := fun x hx => ih x (List.mem_cons_of_mem _ hx)
      simp only at hp hq
      split at hp
      · rename_i hc
        rcases List.mem_cons.mp hp with h | h
        · subst h; exact ⟨by simp, by simp; omega⟩
        · exact ht p h
      · rcases List.mem_cons.mp hp with h | h
        · subst h; exact ⟨Nat.le_refl _, by simp⟩
        · rcases List.mem_cons.mp h with h | h
          · subst h; exact hq
          · exact ht p h

theorem rlz_flat_runs (data : List UInt8) : rlz_flat (rlz_runs data) = data := by
  induction data with
  | nil => rfl
  | cons b rest ih =>
    unfold rlz_runs
    cases hr : rlz_runs rest with
    | nil =>
      rw [hr] at ih
      simp only [rlz_flat] at ih ⊢
      rw [← ih]; rfl
    | cons q t =>
      obtain ⟨c, b₁⟩ := q
      rw [hr] at ih
      simp only [rlz_flat] at ih
      simp only
      split
      · rename_i hc
        simp only [rlz_flat, List.replicate_succ, List.cons_append, ih, hc.1]
      · simp only [rlz_flat, List.replicate_succ, List.replicate_zero, List.cons_append,
          List.nil_append, ih]

theorem rlz_expand_emit (runs : List (Nat × UInt8)) (c : UInt8)
    (h : ∀ p ∈ runs, 1 ≤ p.1 ∧ p.1 ≤ 255) :
    rlz_expand (rlz_emit runs ++ [0, c]) = rlz_flat runs := by
  induction runs with
  | nil => simp [rlz_emit, rlz_expand, rlz_flat]
  | cons p t ih =>
    obtain ⟨n, b⟩ := p
    have hn := h (n, b) (List.mem_cons_self _ _)
    have ht : ∀ x ∈ t, 1 ≤ x.1 ∧ x.1 ≤ 255 := fun x hx => h x (List.mem_cons_of_mem _ hx)
    simp only at hn
    have hto : (UInt8.ofNat n).toNat = n := by
      simp [UInt8.ofNat, UInt8.toNat, Fin.ofNat, UInt8.size]; omega
    have hne : UInt8.ofNat n ≠ 0 := by
      intro h0
      have : (UInt8.ofNat n).toNat = (0 : UInt8).toNat := by rw [h0]
      rw [hto] at this
      simp at this
      omega
    have ih1 := ih ht
    simp only [rlz_emit, List.cons_append, rlz_expand, hne, if_false, hto, rlz_flat]
    rw [show (rlz_emit t).append [0, c] = rlz_emit t ++ [0, c] from rfl, ih1]

theorem rlz_inflate_deflate (data : List UInt8) : rlz_inflate (rlz_deflate data) = data := by
  unfold rlz_deflate
  simp only
  split
  · simp only [rlz_inflate]
    simp only [if_true]
    rw [rlz_expand_emit _ _ (rlz_runs_counts data), rlz_flat_runs, if_neg (by decide)]
  · simp only [rlz_inflate, if_true]
    exact List.dropLast_concat

theorem rlz_deflate_length (data : List UInt8) :
    (rlz_deflate data).length ≤ data.length + 2 := by
  unfold rlz_deflate
  simp only
  split
  · simp only [List.length_cons, List.length_append, List.length_nil]; omega
  · simp only [List.length_cons, List.length_append, List.length_nil]; omega

theorem rlz_lawful : rlz.Lawful where
  inflate_deflate := rlz_inflate_deflate
  deflate_bound := fun data => by
    have := rlz_deflate_length data
    show (rlz_deflate data).length ≤ compressBound data.length
    unfold compressBound
    omega

/-! ## The codec adapter -/

/-- The payload that `compress_with_zlib` returns is shorter than `2 ^ 63`. -/
theorem compress_with_zlib_length_lt (Z : Zlib) (data : List UInt8) :
    (compress_with_zlib Z data).length < 2 ^ 63 := by
  unfold compress_with_zlib
  simp only
  split
  · rw [List.length_take]
    have h1 := Nat.mod_lt (deflate_buffer_size data.length) (show 0 < 2 ^ 32 by norm_num)
    have h2 := Nat.mod_lt
      ((deflate_buffer_size data.length * 2 % 2 ^ 64 + 2 ^ 64
        - min (deflate_buffer_size data.length % 2 ^ 32)
            (Z.deflate (List.take (data.length % 2 ^ 32) data)).length) % 2 ^ 64)
      (show 0 < 2 ^ 32 by norm_num)
    omega
  · rw [List.length_take]
    have h1 := Nat.mod_lt (deflate_buffer_size data.length) (show 0 < 2 ^ 32 by norm_num)
    omega

/-- The output of `decompress_with_zlib` is never longer than ten times its
input, whatever the library does. -/
theorem decompress_with_zlib_length_le (Z : Zlib) (compressed_data : List UInt8) :
    (decompress_with_zlib Z compressed_data).length ≤ 10 * compressed_data.length := by
  unfold decompress_with_zlib
  simp only [List.length_take]
  have h1 := Nat.mod_le (compressed_data.length * 10 % 2 ^ 64) (2 ^ 32)
  have h2 := Nat.mod_le (compressed_data.length * 10) (2 ^ 64)
  omega

/-- For a chunk of at most `chunk_size` bytes and a library that keeps the bound
of `compressBound`, `compress_with_zlib` returns the complete deflate stream. -/
theorem compress_with_zlib_lawful (Z : Zlib) (hZ : Z.Lawful) (data : List UInt8)
    (hlen : data.length ≤ chunk_size) :
    compress_with_zlib Z data = Z.deflate data := by
  have hb := hZ.deflate_bound data
  have hcs : chunk_size = 1048576 := by decide
  unfold compressBound at hb
  have hin : data.length % 2 ^ 32 = data.length := Nat.mod_eq_of_lt (by omega)
  have htake : List.take data.length data = data := List.take_of_length_le (Nat.le_refl _)
  have e1 : (data.length * 11 / 10 + 12) % 2 ^ 64 = data.length * 11 / 10 + 12 :=
    Nat.mod_eq_of_lt (by omega)
  have e2 : (data.length * 11 / 10 + 12) % 2 ^ 32 = data.length * 11 / 10 + 12 :=
    Nat.mod_eq_of_lt (by omega)
  have e3 : (data.length * 11 / 10 + 12) * 2 % 2 ^ 64 = (data.length * 11 / 10 + 12) * 2 :=
    Nat.mod_eq_of_lt (by omega)
  have e4 : ((data.length * 11 / 10 + 12) * 2 + 2 ^ 64
      - min (data.length * 11 / 10 + 12) (Z.deflate data).length) % 2 ^ 64
      = (data.length * 11 / 10 + 12) * 2
        - min (data.length * 11 / 10 + 12) (Z.deflate data).length := by
    omega
  have e5 : ((data.length * 11 / 10 + 12) * 2
      - min (data.length * 11 / 10 + 12) (Z.deflate data).length) % 2 ^ 32
      = (data.length * 11 / 10 + 12) * 2
        - min (data.length * 11 / 10 + 12) (Z.deflate data).length :=
    Nat.mod_eq_of_lt (by omega)
  unfold compress_with_zlib deflate_buffer_size
  simp only [hin, htake, e1, e2, e3, e4, e5]
  split
  · apply List.take_of_length_le
    omega
  · apply List.take_of_length_le
    omega

/-- Inflating a complete deflate stream of a chunk through `decompress_with_zlib`
gives the chunk back when the chunk is at most ten times as long as the stream. -/
theorem decompress_with_zlib_deflate (Z : Zlib) (hZ : Z.Lawful) (data : List UInt8)
    (hlen : data.length ≤ chunk_size) (hratio : data.length ≤ 10 * (Z.deflate data).length) :
    decompress_with_zlib Z (Z.deflate data) = data := by
  have hb := hZ.deflate_bound data
  have hcs : chunk_size = 1048576 := by decide
  unfold compressBound at hb
  have hin : (Z.deflate data).length % 2 ^ 32 = (Z.deflate data).length :=
    Nat.mod_eq_of_lt (by omega)
  have htake : List.take (Z.deflate data).length (Z.deflate data) = Z.deflate data :=
    List.take_of_length_le (Nat.le_refl _)
  have e1 : (Z.deflate data).length * 10 % 2 ^ 64 = (Z.deflate data).length * 10 :=
    Nat.mod_eq_of_lt (by omega)
  have e2 : (Z.deflate data).length * 10 % 2 ^ 32 = (Z.deflate data).length * 10 :=
    Nat.mod_eq_of_lt (by omega)
  have e3 : List.take ((Z.deflate data).length * 10) data = data :=
    List.take_of_length_le (by omega)
  unfold decompress_with_zlib
  simp only [hin, htake, hZ.inflate_deflate, e1, e2, e3]
  exact List.take_of_length_le (Nat.le_refl _)

/-- Round trip of one chunk through `compress_chunk` and `decompress_chunk` when
the 10x buffer of `decompress_with_zlib` is large enough. -/
theorem decompress_chunk_compress_chunk (Z : Zlib) (hZ : Z.Lawful) (i : Nat)
    (data : List UInt8) (hlen : data.length ≤ chunk_size)
    (hratio : data.length ≤ 10 * (compress_chunk Z i data).compressed_size) :
    decompress_chunk Z i (compress_chunk Z i data).compressed_data (compress_chunk Z i data).crc
      = .ok data := by
  have hc := compress_with_zlib_lawful Z hZ data hlen
  have hr : data.length ≤ 10 * (Z.deflate data).length := by
    simpa only [compress_chunk, hc] using hratio
  have hd := decompress_with_zlib_deflate Z hZ data hlen hr
  show (if compute_crc Z (decompress_with_zlib Z (compress_with_zlib Z data))
      ≠ compute_crc Z data then _ else _) = _
  rw [hc, hd, if_neg (not_not.mpr rfl)]
  show Except.ok (decompress_with_zlib Z (compress_with_zlib Z data)) = _
  rw [hc, hd]

/-! ## Flipping a bit of a payload -/
theorem flip_bit_length (l : List UInt8) (k : Nat) : (flip_bit l k).length = l.length := by
  induction l generalizing k with
  | nil => rfl
  | cons b bs ih =>
    unfold flip_bit
    split
    · rfl
    · simp [ih]

theorem flip_bit_append_left (l tl : List UInt8) (k : Nat) (hk : k < 8 * l.length) :
    flip_bit (l ++ tl) k = flip_bit l k ++ tl := by
  induction l generalizing k with
  | nil => simp at hk
  | cons b bs ih =>
    rw [List.cons_append]
    unfold flip_bit
    split
    · rfl
    · rw [List.cons_append, ih (k - 8) (by simp only [List.length_cons] at hk; omega)]

theorem flip_bit_cons_ge (b : UInt8) (bs : List UInt8) (k : Nat) (h : ¬ k < 8) :
    flip_bit (b :: bs) k = b :: flip_bit bs (k - 8) := by
  rw [flip_bit, if_neg h]

theorem flip_bit_append_right (hd l : List UInt8) (k : Nat) :
    flip_bit (hd ++ l) (8 * hd.length + k) = hd ++ flip_bit l k := by
  induction hd with
  | nil => simp
  | cons b bs ih =>
    have h1 : ¬ 8 * (b :: bs).length + k < 8 := by simp only [List.length_cons]; omega
    have h2 : 8 * (b :: bs).length + k - 8 = 8 * bs.length + k := by
      simp only [List.length_cons]; omega
    rw [List.cons_append, flip_bit_cons_ge _ _ _ h1, h2, ih, List.cons_append]

theorem records_bytes_append (a b : List Record) :
    records_bytes (a ++ b) = records_bytes a ++ records_bytes b := by
  induction a with
  | nil => rfl
  | cons r rs ih =>
    rw [List.cons_append]
    simp only [records_bytes]
    rw [ih, List.append_assoc]

/-- Flipping bit `k` of the payload of record `i` in a serialised container gives
the container in which that record carries the altered payload. -/
theorem flip_bit_container (pre : List Record) (r : Record) (post : List Record) (k : Nat)
    (hk : k < 8 * r.payload.length) :
    flip_bit (container (pre ++ r :: post))
        (8 * payload_offset (pre ++ r :: post) pre.length + k)
      = container (pre ++ { r with payload := flip_bit r.payload k } :: post) := by
  have htake : (pre ++ r :: post).take pre.length = pre := by simp
  have hshape : ∀ x : Record, container (pre ++ x :: post)
      = (MYCOMP ++ (toLE 8 (pre ++ x :: post).length ++ (records_bytes pre
          ++ (toLE 8 x.original_size ++ (toLE 8 x.payload.length ++ toLE 4 x.crc)))))
        ++ (x.payload ++ records_bytes post) := by
    intro x
    simp only [container, records_bytes_append, records_bytes, Record.bytes, List.append_assoc]
  have hoff : payload_offset (pre ++ r :: post) pre.length
      = (MYCOMP ++ (toLE 8 (pre ++ r :: post).length ++ (records_bytes pre
          ++ (toLE 8 r.original_size ++ (toLE 8 r.payload.length ++ toLE 4 r.crc))))).length := by
    unfold payload_offset
    rw [htake]
    simp only [List.length_append, toLE_length, MYCOMP, List.length_cons, List.length_nil]
    omega
  rw [hshape r, hoff, flip_bit_append_right, flip_bit_append_left _ _ _ hk, hshape]
  simp only [flip_bit_length, List.length_append, List.length_cons]

/-- The run of `decompress_file` on a container in which one bit of the payload
of the record at position `pre.length` was flipped, when the vectors can be
constructed, the tasks up to that record read their payloads before the vectors
are destroyed, and no later task faults. -/
theorem decompress_file_flip (Z : Zlib) (E : Env) (J : Junk) (pre : List Record) (r : Record)
    (post : List Record) (k : Nat)
    (hfa : vector_alloc E.heap sizeof_future (pre ++ r :: post).length = none)
    (ha : ∀ x ∈ pre ++ r :: post, vector_alloc E.heap 1 x.payload.length = none)
    (hk : k < 8 * r.payload.length) (hpre : ∀ x ∈ pre, x.checks Z)
    (hvpre : ∀ j x, pre[j]? = some x → E.decompress_view j x.payload = some x.payload)
    (hvr : E.decompress_view pre.length (flip_bit r.payload k) = some (flip_bit r.payload k))
    (hvpost : ∀ j x, post[j]? = some x →
      E.decompress_view (pre.length + 1 + j) x.payload ≠ none) :
    (compute_crc Z (decompress_with_zlib Z (flip_bit r.payload k)) ≠ r.crc % 2 ^ 32 →
      decompress_file Z E J (flip_bit (container (pre ++ r :: post))
          (8 * payload_offset (pre ++ r :: post) pre.length + k))
        = { error := some (.crcMismatch pre.length),
            consumed := (container (pre ++ r :: post)).length,
            dispatched := (pre ++ r :: post).length,
            outfile := some (decoded_bytes Z pre) }) ∧
    (compute_crc Z (decompress_with_zlib Z (flip_bit r.payload k)) = r.crc % 2 ^ 32 →
      (decompress_file Z E J (flip_bit (container (pre ++ r :: post))
          (8 * payload_offset (pre ++ r :: post) pre.length + k))).error
        ≠ some (.crcMismatch pre.length)) := by
  have hfa2 : vector_alloc E.heap sizeof_future
      (pre ++ { r with payload := flip_bit r.payload k } :: post).length = none := by
    simpa only [List.length_append, List.length_cons] using hfa
  have ha2 : ∀ x ∈ pre ++ { r with payload := flip_bit r.payload k } :: post,
      vector_alloc E.heap 1 x.payload.length = none := by
    intro x hx
    rcases List.mem_append.mp hx with h | h
    · exact ha x (List.mem_append_left _ h)
    · rcases List.mem_cons.mp h with h | h
      · subst h
        simp only [flip_bit_length]
        exact ha r (List.mem_append_right _ (List.mem_cons_self _ _))
      · exact ha x (List.mem_append_right _ (List.mem_cons_of_mem _ h))
  have hrun := decompress_file_container Z E J
    (pre ++ { r with payload := flip_bit r.payload k } :: post) [] hfa2 ha2
  rw [List.append_nil] at hrun
  have hcl : (container (pre ++ { r with payload := flip_bit r.payload k } :: post)).length
      = (container (pre ++ r :: post)).length := by
    rw [← flip_bit_container pre r post k hk, flip_bit_length]
  have hdl : (pre ++ { r with payload := flip_bit r.payload k } :: post).length
      = (pre ++ r :: post).length := by
    simp only [List.length_append, List.length_cons]
  obtain ⟨ps, hps⟩ := decompress_futures_joined Z E (pre.length + 1) post hvpost
  have hfut : joined (decompress_futures Z E 0
        (pre ++ { r with payload := flip_bit r.payload k } :: post))
      = some (decompress_tasks Z 0 pre
          ++ decompress_chunk Z pre.length (flip_bit r.payload k) (r.crc % 2 ^ 32) :: ps) := by
    rw [decompress_futures_append, decompress_futures_intact Z E 0 pre (by
      intro j x hx
      rw [Nat.zero_add]
      exact hvpre j x hx), joined_append_some, Nat.zero_add]
    show Option.map _ (joined (decompress_task Z E pre.length (flip_bit r.payload k)
      (r.crc % 2 ^ 32) :: decompress_futures Z E (pre.length + 1) post)) = _
    rw [decompress_task_intact Z E _ _ _ hvr]
    simp only [joined, hps, Option.map_some']
  rw [flip_bit_container pre r post k hk, hrun, hfut, hcl, hdl]
  constructor
  · intro hne
    have hc : decompress_chunk Z pre.length (flip_bit r.payload k) (r.crc % 2 ^ 32)
        = .error (.crcMismatch pre.length) := by
      show (if compute_crc Z (decompress_with_zlib Z (flip_bit r.payload k)) ≠ r.crc % 2 ^ 32
        then _ else _) = _
      rw [if_pos hne]
    simp only [hc, decompress_collect_stop Z 0 pre _ _ hpre]
  · intro heq
    have hc : decompress_chunk Z pre.length (flip_bit r.payload k) (r.crc % 2 ^ 32)
        = .ok (decompress_with_zlib Z (flip_bit r.payload k)) := by
      show (if compute_crc Z (decompress_with_zlib Z (flip_bit r.payload k)) ≠ r.crc % 2 ^ 32
        then _ else _) = _
      rw [if_neg (not_not.mpr heq)]
    simp only [hc, decompress_collect_pass Z 0 pre _ hpre, decompress_collect]
    intro h
    obtain ⟨j, hj, h1, _⟩ := decompress_futures_error Z E (pre.length + 1) post ps _ hps h
    have : pre.length = j := by injection hj
    omega

theorem compute_crc_mod (Z : Zlib) (data : List UInt8) :
    compute_crc Z data % 2 ^ 32 = compute_crc Z data := by
  unfold compute_crc
  exact Nat.mod_mod _ _

theorem total_chunks_le {cs : Nat} (hcs : 0 < cs) (n : Nat) : total_chunks cs n ≤ n := by
  rcases Nat.eq_zero_or_pos n with h0 | hpos
  · subst h0; simp [total_chunks]
  · have h := ((total_chunks_bounds hcs n).2 hpos).1
    have h2 : total_chunks cs n - 1 ≤ (total_chunks cs n - 1) * cs :=
      Nat.le_mul_of_pos_right _ hcs
    omega

/-- The records of a file split at chunk index `i`. -/
theorem spec_records_split (Z : Zlib) {cs : Nat} (hcs : 0 < cs) (input : List UInt8) (i : Nat)
    (hi : i < total_chunks cs input.length) :
    spec_records Z cs input
      = (List.range i).map (spec_record Z cs input)
        ++ spec_record Z cs input i :: (spec_records Z cs input).drop (i + 1) ∧
    (spec_records Z cs input).take i = (List.range i).map (spec_record Z cs input) := by
  have hlen := spec_records_length Z hcs input
  have htake : (spec_records Z cs input).take i
      = (List.range i).map (spec_record Z cs input) := by
    unfold spec_records
    rw [← total_chunks_eq_ceil hcs, ← List.map_take, List.take_range,
      Nat.min_eq_left (Nat.le_of_lt hi)]
  have hb : i < (spec_records Z cs input).length := by rw [hlen]; exact hi
  have hget : (spec_records Z cs input)[i] = spec_record Z cs input i := by
    simp [spec_records]
  refine ⟨?_, htake⟩
  rw [← htake, ← hget, ← List.drop_eq_getElem_cons, List.take_append_drop]

/-- The record at index `j` of the records of a file. -/
theorem spec_records_getElem? (Z : Zlib) {cs : Nat} (hcs : 0 < cs) (input : List UInt8)
    (j : Nat) (r : Record) (h : (spec_records Z cs input)[j]? = some r) :
    j < total_chunks cs input.length ∧ r = spec_record Z cs input j := by
  unfold spec_records at h
  rw [← total_chunks_eq_ceil hcs, List.getElem?_map] at h
  by_cases hj : j < total_chunks cs input.length
  · rw [List.getElem?_range hj] at h
    simp only [Option.map_some', Option.some.injEq] at h
    exact ⟨hj, h.symm⟩
  · rw [List.getElem?_eq_none (by simp only [List.length_range]; omega)] at h
    simp at h

/-- Bytes that `compress_with_zlib` shrinks by more than 10x do not come back from
`decompress_with_zlib`. -/
theorem decompress_with_zlib_ne (Z : Zlib) (raw : List UInt8)
    (hratio : 10 * (compress_with_zlib Z raw).length < raw.length) :
    decompress_with_zlib Z (compress_with_zlib Z raw) ≠ raw := by
  have h := decompress_with_zlib_length_le Z (compress_with_zlib Z raw)
  intro heq
  rw [heq] at h
  omega

theorem vector_alloc_intact (n : Nat) (h : n < 2 ^ 63) : vector_alloc intact.heap 1 n = none := by
  have h1 : ¬ n > (2 ^ 63 - 1) / 1 := by rw [Nat.div_one]; omega
  have h2 : ¬ n * 1 > intact.heap := by
    show ¬ n * 1 > 2 ^ 63 - 1
    omega
  unfold vector_alloc
  rw [if_neg h1, if_neg h2]

theorem vector_alloc_intact_futures (n : Nat) (h : n < 2 ^ 59) :
    vector_alloc intact.heap sizeof_future n = none := by
  have h0 : (2 ^ 63 - 1) / sizeof_future = 2 ^ 59 - 1 := by decide
  have h1 : ¬ n > (2 ^ 63 - 1) / sizeof_future := by rw [h0]; omega
  have h2 : ¬ n * sizeof_future > intact.heap := by
    show ¬ n * 16 > 2 ^ 63 - 1
    omega
  unfold vector_alloc
  rw [if_neg h1, if_neg h2]

/-! ## What `compress_file` writes in an arbitrary environment -/

/-- The chunk that a task of `compress_file` returns when it does not fault, as a
record: the length it was given, the checksum of the bytes `compute_crc` found
and the encoding of the bytes `compress_with_zlib` found. -/
theorem compress_task_record (Z : Zlib) (E : Env) (i : Nat) (chunk : List UInt8) (c : ChunkData)
    (h : compress_task Z E i chunk = some c) :
    ∃ a b, E.compress_view i chunk = some (a, b) ∧
      c.record = { original_size := chunk.length,
                   crc := compute_crc Z (fit chunk.length a),
                   payload := compress_with_zlib Z (fit chunk.length b) } := by
  unfold compress_task at h
  cases hv : E.compress_view i chunk with
  | none => simp [hv] at h
  | some p =>
    obtain ⟨a, b⟩ := p
    simp only [hv, Option.some.injEq] at h
    rw [← h]
    exact ⟨a, b, rfl, rfl⟩

/-- The run of `compress_file` in any environment: either a task faults and the
process is killed, or no exception leaves it, the whole input is read, one task
per chunk is started, and a container with one record per chunk is written;
record `j` holds the length of chunk `j`, the checksum of the bytes that
`compute_crc` found at the pointer and the encoding of the bytes that
`compress_with_zlib` found there. -/
theorem compress_file_with_records (Z : Zlib) (E : Env) {cs : Nat} (hcs : 0 < cs)
    (hcs2 : cs < 2 ^ 63) (input : List UInt8) :
    (compress_file_with Z E cs input = killed_run ∧
      ∃ j < total_chunks cs input.length, E.compress_view j (spec_chunk cs input j) = none) ∨
    ∃ records : List Record, records.length = total_chunks cs input.length ∧
      compress_file_with Z E cs input
        = { error := none, consumed := input.length,
            dispatched := total_chunks cs input.length,
            outfile := some (container records) } ∧
      ∀ j < total_chunks cs input.length, ∃ a b,
        E.compress_view j (spec_chunk cs input j) = some (a, b) ∧
        records[j]? = some { original_size := (spec_chunk cs input j).length,
                             crc := compute_crc Z (fit (spec_chunk cs input j).length a),
                             payload := compress_with_zlib Z
                               (fit (spec_chunk cs input j).length b) } := by
  have hrun := compress_file_with_run Z E hcs hcs2 input
  cases hj : joined ((List.range (total_chunks cs input.length)).map
      (fun j => compress_task Z E j (spec_chunk cs input j))) with
  | none =>
    left
    rw [hj] at hrun
    refine ⟨hrun, ?_⟩
    have hmem := (joined_eq_none _).mp hj
    simp only [List.mem_map, List.mem_range] at hmem
    obtain ⟨j, hjlt, hjn⟩ := hmem
    refine ⟨j, hjlt, ?_⟩
    unfold compress_task at hjn
    cases hv : E.compress_view j (spec_chunk cs input j) with
    | none => rfl
    | some p => simp [hv] at hjn
  | some chunks =>
    right
    rw [hj] at hrun
    have hl := (joined_eq_some _ _).mp hj
    have hlen : chunks.length = total_chunks cs input.length := by
      have := congrArg List.length hl
      simp only [List.length_map, List.length_range] at this
      exact this.symm
    have htask : ∀ j < total_chunks cs input.length, ∃ c, chunks[j]? = some c ∧
        compress_task Z E j (spec_chunk cs input j) = some c := by
      intro j hjlt
      have h1 := congrArg (fun l => l[j]?) hl
      simp only [List.getElem?_map, List.getElem?_range hjlt, Option.map_some'] at h1
      have hjc : j < chunks.length := by omega
      rw [List.getElem?_eq_getElem hjc, Option.map_some'] at h1
      exact ⟨chunks[j], List.getElem?_eq_getElem hjc, Option.some.inj h1⟩
    have hsizes : ∀ c ∈ chunks, c.compressed_size = c.compressed_data.length := by
      intro c hc
      obtain ⟨j, hjc, hget⟩ := List.getElem_of_mem hc
      obtain ⟨c2, hc2, ht⟩ := htask j (by omega)
      rw [List.getElem?_eq_getElem hjc, hget, Option.some.injEq] at hc2
      rw [← hc2] at ht
      exact (compress_task_sizes Z E j _ c ht).2
    refine ⟨chunks.map ChunkData.record, by rw [List.length_map, hlen], ?_, ?_⟩
    · rw [hrun]
      simp only [compress_collect_records chunks hsizes, container, List.length_map, hlen]
    · intro j hjlt
      obtain ⟨c, hc, ht⟩ := htask j hjlt
      obtain ⟨a, b, hv, hrec⟩ := compress_task_record Z E j _ c ht
      refine ⟨a, b, hv, ?_⟩
      rw [List.getElem?_map, hc, Option.map_some', hrec]

/-- A file of at most one chunk has one chunk, which is the file. -/
theorem single_chunk (input : List UInt8) (hpos : 0 < input.length)
    (hle : input.length ≤ chunk_size) :
    total_chunks chunk_size input.length = 1 ∧ spec_chunk chunk_size input 0 = input := by
  have hb := total_chunks_bounds chunk_size_pos input.length
  have htc : total_chunks chunk_size input.length = 1 := by
    have h1 := hb.1
    have h2 := (hb.2 hpos).1
    have h3 := (hb.2 hpos).2
    rcases Nat.lt_or_ge (total_chunks chunk_size input.length) 2 with h | h
    · omega
    · have : chunk_size ≤ (total_chunks chunk_size input.length - 1) * chunk_size :=
        Nat.le_mul_of_pos_left _ (by omega)
      omega
  refine ⟨htc, ?_⟩
  unfold spec_chunk
  rw [Nat.zero_mul, List.drop_zero, List.take_of_length_le hle]

/-- The run of `compress_file` on a file of one chunk. -/
theorem compress_file_single (Z : Zlib) (E : Env) (input : List UInt8)
    (hpos : 0 < input.length) (hle : input.length ≤ chunk_size) :
    (E.compress_view 0 input = none ∧ compress_file Z E input = killed_run) ∨
    ∃ a b, E.compress_view 0 input = some (a, b) ∧
      compress_file Z E input
        = { error := none, consumed := input.length, dispatched := 1,
            outfile := some (container [Record.mk input.length
              (compute_crc Z (fit input.length a))
              (compress_with_zlib Z (fit input.length b))]) } := by
  obtain ⟨htc, hchunk⟩ := single_chunk input hpos hle
  rcases compress_file_with_records Z E chunk_size_pos chunk_size_lt input with h | h
  · left
    obtain ⟨hk, j, hj, hv⟩ := h
    rw [htc] at hj
    have hj0 : j = 0 := by omega
    rw [hj0, hchunk] at hv
    exact ⟨hv, hk⟩
  · right
    obtain ⟨records, hlen, hrun, hrec⟩ := h
    obtain ⟨a, b, hv, hget⟩ := hrec 0 (by rw [htc]; decide)
    rw [hchunk] at hv hget
    rw [htc] at hlen hrun
    refine ⟨a, b, hv, ?_⟩
    have hrecords : records = [Record.mk input.length
        (compute_crc Z (fit input.length a))
        (compress_with_zlib Z (fit input.length b))] := by
      match records, hlen, hget with
      | [r], _, hget =>
        simp only [List.getElem?_cons_zero, Option.some.injEq] at hget
        rw [hget]
    show compress_file_with Z E chunk_size input = _
    rw [hrun, hrecords]

/-! ## `decompress_file` on a container of one record -/

/-- On a container of one record whose payload is less than a tenth as long as
some bytes, `decompress_file` does not both return normally and write those
bytes, in any environment. -/
theorem decompress_file_single_fails (Z : Zlib) (E : Env) (J : Junk) (r : Record)
    (target : List UInt8) (hl : r.payload.length < 2 ^ 64)
    (hratio : 10 * r.payload.length < target.length) :
    ¬ ((decompress_file Z E J (container [r])).error = none ∧
        (decompress_file Z E J (container [r])).outfile = some target) := by
  have hfrom : fromLE (toLE 8 1) = 1 := by decide
  have hshape : container [r] = MYCOMP ++ (toLE 8 1 ++ (toLE 8 r.original_size
      ++ (toLE 8 r.payload.length ++ (toLE 4 r.crc ++ r.payload)))) := by
    simp [container, records_bytes, Record.bytes]
  cases hfa : vector_alloc E.heap sizeof_future 1 with
  | some e =>
    rw [hshape, decompress_file_header_alloc Z E J _ _ e (toLE_length 8 _)
      (by rw [hfrom]; exact hfa)]
    simp
  | none =>
    cases ha : vector_alloc E.heap 1 r.payload.length with
    | some e =>
      rw [hshape, decompress_file_header Z E J _ _ (toLE_length 8 _)
        (by rw [hfrom]; exact hfa), hfrom,
        decompress_dispatch_alloc Z E J _ _ _ 0 0 _ e hl ha]
      simp [joined]
    | none =>
      have hrun := decompress_file_container Z E J [r] [] hfa (by
        intro x hx
        rw [List.mem_singleton.mp hx]
        exact ha)
      rw [List.append_nil] at hrun
      rw [hrun]
      cases hv : E.decompress_view 0 r.payload with
      | none =>
        simp [decompress_futures, decompress_task, hv, joined, killed_run]
      | some found =>
        have hlen := decompress_with_zlib_length_le Z (fit r.payload.length found)
        rw [fit_length] at hlen
        have hfut : joined (decompress_futures Z E 0 [r])
            = some [decompress_chunk Z 0 (fit r.payload.length found) (r.crc % 2 ^ 32)] := by
          simp only [decompress_futures, decompress_task, hv, joined]
        rw [hfut]
        rcases decompress_chunk_cases Z 0 (fit r.payload.length found) (r.crc % 2 ^ 32)
          with hc | hc
        · rw [hc]
          simp [decompress_collect]
        · rw [hc.1]
          simp only [decompress_collect, List.append_nil, Option.some.injEq, true_and]
          intro heq
          rw [heq] at hlen
          omega

/-- CRC-32 of 200 zero bytes, computed in four runs of 50 bytes. -/
theorem crc32_zeros200 : crc32 zeros200 = 0xC971A876 := by
  have hsplit : zeros200 = List.replicate 50 0 ++ (List.replicate 50 0
      ++ (List.replicate 50 0 ++ List.replicate 50 0)) := by
    simp only [zeros200, ← List.replicate_add]
  have h1 : List.foldl crc32_byte 0xFFFFFFFF (List.replicate 50 0) = 3765994465 := by decide!
  have h2 : List.foldl crc32_byte 3765994465 (List.replicate 50 0) = 1719089461 := by decide!
  have h3 : List.foldl crc32_byte 1719089461 (List.replicate 50 0) = 3610611488 := by decide!
  have h4 : List.foldl crc32_byte 3610611488 (List.replicate 50 0) = 915298185 := by decide!
  unfold crc32
  rw [hsplit, List.foldl_append, List.foldl_append, List.foldl_append, h1, h2, h3, h4]
  decide

/-- CRC-32 of 120 zero bytes. -/
theorem crc32_zeros120 : crc32 (List.replicate 120 0) = 0x395D7A27 := by
  have hsplit : List.replicate 120 (0 : UInt8) = List.replicate 50 0 ++ (List.replicate 50 0
      ++ List.replicate 20 0) := by
    simp only [← List.replicate_add]
  have h1 : List.foldl crc32_byte 0xFFFFFFFF (List.replicate 50 0) = 3765994465 := by decide!
  have h2 : List.foldl crc32_byte 3765994465 (List.replicate 50 0) = 1719089461 := by decide!
  have h3 : List.foldl crc32_byte 1719089461 (List.replicate 20 0) = 3332539864 := by decide!
  unfold crc32
  rw [hsplit, List.foldl_append, List.foldl_append, h1, h2, h3]
  decide

theorem zeros200_single :
    total_chunks chunk_size zeros200.length = 1 ∧ spec_chunk chunk_size zeros200 0 = zeros200 :=
  single_chunk zeros200 (by decide!) (by decide!)

/-- The records that the specification gives for a file of one chunk. -/
theorem spec_records_single (Z : Zlib) (input : List UInt8) (hpos : 0 < input.length)
    (hle : input.length ≤ chunk_size) :
    spec_records Z chunk_size input
      = [Record.mk input.length (compute_crc Z input) (compress_with_zlib Z input)] := by
  obtain ⟨htc, hchunk⟩ := single_chunk input hpos hle
  unfold spec_records
  rw [← total_chunks_eq_ceil chunk_size_pos, htc]
  simp only [List.range_succ, List.range_zero, List.nil_append, List.map_cons, List.map_nil,
    spec_record, hchunk]

/-- The container that `compress_file` writes for 200 zero bytes with the small
codec when the task reads the chunk before the vector is destroyed. -/
theorem compress_file_zeros200 :
    compress_file rlz intact zeros200
      = { error := none, consumed := 200, dispatched := 1, outfile := some zeros200_file } := by
  have hrun := compress_file_with_eq rlz intact chunk_size_pos chunk_size_lt zeros200
    (fun _ _ => rfl)
  have hrecs := spec_records_single rlz zeros200 (by decide!) (by decide!)
  have hpay : compress_with_zlib rlz zeros200 = [1, 200, 0, 0, 0] := by decide!
  have hcrc : compute_crc rlz zeros200 = 0xC971A876 := by
    simp only [compute_crc, rlz, crc32_zeros200]
    decide
  have hl : zeros200.length = 200 := List.length_replicate _ _
  show compress_file_with rlz intact chunk_size zeros200 = _
  rw [hrun, hrecs, hpay, hcrc, zeros200_single.1, hl]
  decide

/-- The container that `compress_file` writes for 200 zero bytes with zlib 1.2.13
when the task reads the chunk before the vector is destroyed. -/
theorem compress_file_zeros200_zlib :
    compress_file zlib_1_2_13 intact zeros200
      = { error := none, consumed := 200, dispatched := 1,
          outfile := some zeros200_container } := by
  have hrun := compress_file_with_eq zlib_1_2_13 intact chunk_size_pos chunk_size_lt zeros200
    (fun _ _ => rfl)
  have hrecs := spec_records_single zlib_1_2_13 zeros200 (by decide!) (by decide!)
  have hpay : compress_with_zlib zlib_1_2_13 zeros200
      = [120, 156, 99, 96, 24, 30, 0, 0, 0, 200, 0, 1] := by decide!
  have hcrc : compute_crc zlib_1_2_13 zeros200 = 0xC971A876 := by
    simp only [compute_crc, zlib_1_2_13, crc32_zeros200]
    decide
  have hl : zeros200.length = 200 := List.length_replicate _ _
  show compress_file_with zlib_1_2_13 intact chunk_size zeros200 = _
  rw [hrun, hrecs, hpay, hcrc, zeros200_single.1, hl]
  decide

/-- With zlib 1.2.13 the stream of 200 zero bytes has 12 bytes, and
`decompress_with_zlib` returns only the first 120 zero bytes. -/
theorem decompress_with_zlib_zeros200 :
    decompress_with_zlib zlib_1_2_13 [120, 156, 99, 96, 24, 30, 0, 0, 0, 200, 0, 1]
      = List.replicate 120 0 := by decide!

/-- The run of `decompress_file` with zlib 1.2.13 on the container of 200 zero
bytes when the task reads the payload before the vector is destroyed. -/
theorem decompress_file_zeros200_zlib :
    decompress_file zlib_1_2_13 intact junk0 zeros200_container
      = { error := some (.crcMismatch 0), consumed := 46, dispatched := 1,
          outfile := some [] } := by
  have hc : zeros200_container
      = container [Record.mk 200 0xC971A876 [120, 156, 99, 96, 24, 30, 0, 0, 0, 200, 0, 1]] := by
    decide
  have hrun := decompress_file_container_intact zlib_1_2_13 intact junk0
    [Record.mk 200 0xC971A876 [120, 156, 99, 96, 24, 30, 0, 0, 0, 200, 0, 1]] []
    (by decide) (by decide) (fun _ _ _ => rfl)
  have hnot : ¬ (Record.mk 200 0xC971A876
      [120, 156, 99, 96, 24, 30, 0, 0, 0, 200, 0, 1]).checks zlib_1_2_13 := by
    unfold Record.checks
    rw [decompress_with_zlib_zeros200]
    simp only [compute_crc, zlib_1_2_13, crc32_zeros120]
    decide
  have hcol := decompress_collect_fail zlib_1_2_13 0 [] _ [] (by simp) hnot
  rw [List.nil_append] at hcol
  rw [List.append_nil] at hrun
  rw [hc, hrun, hcol]
  decide

/-! ## When the round trip does hold -/
theorem decoded_bytes_append (Z : Zlib) (a b : List Record) :
    decoded_bytes Z (a ++ b) = decoded_bytes Z a ++ decoded_bytes Z b := by
  induction a with
  | nil => rfl
  | cons r rs ih =>
    rw [List.cons_append]
    simp only [decoded_bytes]
    rw [ih, List.append_assoc]

/-- The first `k` chunks of the specification, one after the other, are the
first `k * chunk_size` bytes of the file. -/
theorem spec_chunks_take (cs : Nat) (input : List UInt8) (k : Nat) :
    ((List.range k).map (spec_chunk cs input)).flatten = input.take (k * cs) := by
  induction k with
  | zero => simp
  | succ k ih =>
    rw [List.range_succ, List.map_append, List.flatten_append, ih]
    simp only [List.map_cons, List.map_nil, List.flatten_cons, List.flatten_nil, List.append_nil,
      spec_chunk]
    rw [Nat.succ_mul, List.take_add]

/-- With a library that meets the zlib contract, the records of chunks that are
at most ten times as long as their deflate stream pass their check and decode to
the chunks. -/
theorem decoded_bytes_spec_records (Z : Zlib) (hZ : Z.Lawful) (input : List UInt8) (k : Nat)
    (hratio : ∀ i < k, (spec_chunk chunk_size input i).length
      ≤ 10 * (Z.deflate (spec_chunk chunk_size input i)).length) :
    (∀ r ∈ (List.range k).map (spec_record Z chunk_size input), r.checks Z) ∧
    decoded_bytes Z ((List.range k).map (spec_record Z chunk_size input))
      = input.take (k * chunk_size) := by
  have hdec : ∀ i < k, decompress_with_zlib Z (spec_record Z chunk_size input i).payload
      = spec_chunk chunk_size input i := by
    intro i hi
    have hlen : (spec_chunk chunk_size input i).length ≤ chunk_size := by
      unfold spec_chunk
      rw [List.length_take]
      exact Nat.min_le_left _ _
    show decompress_with_zlib Z (compress_with_zlib Z (spec_chunk chunk_size input i)) = _
    rw [compress_with_zlib_lawful Z hZ _ hlen]
    exact decompress_with_zlib_deflate Z hZ _ hlen (hratio i hi)
  constructor
  · intro r hr
    simp only [List.mem_map, List.mem_range] at hr
    obtain ⟨i, hi, hr⟩ := hr
    rw [← hr]
    show compute_crc Z (decompress_with_zlib Z (spec_record Z chunk_size input i).payload)
      = compute_crc Z (spec_chunk chunk_size input i) % 2 ^ 32
    rw [hdec i hi, compute_crc_mod]
  · rw [← spec_chunks_take]
    induction k with
    | zero => rfl
    | succ k ih =>
      have ih1 := ih (fun i hi => hratio i (by omega)) (fun i hi => hdec i (by omega))
      rw [List.range_succ, List.map_append, List.map_append, decoded_bytes_append,
        List.flatten_append, ih1]
      simp only [List.map_cons, List.map_nil, decoded_bytes, List.append_nil, List.flatten_cons,
        List.flatten_nil, hdec k (Nat.lt_succ_self k)]

/-- Round trip: with a library that meets the zlib contract, when every task
reads its bytes before the vector is destroyed, for an input of fewer than
`2 ^ 59` bytes all of whose chunks are at most ten times as long as their deflate
stream, `decompress_file` on the container that `compress_file` wrote returns
normally and writes the input. -/
theorem round_trip_of_ratio (Z : Zlib) (hZ : Z.Lawful) (J : Junk) (input : List UInt8)
    (hn : input.length < 2 ^ 59)
    (hratio : ∀ i < total_chunks chunk_size input.length,
      (spec_chunk chunk_size input i).length
        ≤ 10 * (Z.deflate (spec_chunk chunk_size input i)).length) :
    ∃ file, (compress_file Z intact input).outfile = some file ∧
      decompress_file Z intact J file
        = { error := none, consumed := file.length,
            dispatched := total_chunks chunk_size input.length, outfile := some input } := by
  have hrun := compress_file_with_eq Z intact chunk_size_pos chunk_size_lt input (fun _ _ => rfl)
  have hlen := spec_records_length Z chunk_size_pos input
  have htc := total_chunks_le chunk_size_pos input.length
  have hrecs : spec_records Z chunk_size input
      = (List.range (total_chunks chunk_size input.length)).map
          (spec_record Z chunk_size input) := by
    unfold spec_records
    rw [← total_chunks_eq_ceil chunk_size_pos]
  have hpl : ∀ x ∈ spec_records Z chunk_size input,
      vector_alloc intact.heap 1 x.payload.length = none := by
    intro x hx
    simp only [spec_records, List.mem_map] at hx
    obtain ⟨j, _, hj⟩ := hx
    rw [← hj]
    exact vector_alloc_intact _ (compress_with_zlib_length_lt Z _)
  obtain ⟨hchecks, hdec⟩ := decoded_bytes_spec_records Z hZ input
    (total_chunks chunk_size input.length) hratio
  rw [← hrecs] at hchecks hdec
  have hall : input.take (total_chunks chunk_size input.length * chunk_size) = input :=
    List.take_of_length_le (total_chunks_bounds chunk_size_pos input.length).1
  have hd := decompress_file_container_intact Z intact J (spec_records Z chunk_size input) []
    (by rw [hlen]; exact vector_alloc_intact_futures _ (by omega)) hpl (fun _ _ _ => rfl)
  rw [List.append_nil, decompress_collect_ok Z 0 _ hchecks, hdec, hall, hlen] at hd
  exact ⟨container (spec_records Z chunk_size input), by simp only [compress_file, hrun], hd⟩

/-- The round trip of `abc` with zlib 1.2.13 when both tasks read their bytes
before the vectors are destroyed. -/
theorem round_trip_abc :
    compress_file zlib_1_2_13 intact abc
      = { error := none, consumed := 3, dispatched := 1, outfile := some abc_file } ∧
    decompress_file zlib_1_2_13 intact junk0 abc_file
      = { error := none, consumed := 45, dispatched := 1, outfile := some abc } := by
  decide

/-- A task that reads its buffer too late.  In the container of `abc_abc` cut
into chunks of 3 bytes, bit 24 of the payload of record 1 is flipped.  When task 0
reads its buffer only after the payload of record 1 was stored in the same block,
it decodes that payload and compares with the checksum of record 0: the integrity
error names chunk 0, not chunk 1, and nothing is written.  On the unaltered
container the same run writes `abc` twice, because both records are equal. -/
theorem overtaken_task_names_chunk_0 :
    decompress_file zlib_1_2_13 (overtaken [120, 156, 75, 77, 74, 6, 0, 2, 77, 1, 39]) junk0
        (flip_bit abc_abc_file (8 * 65 + 24))
      = { error := some (.crcMismatch 0), consumed := 76, dispatched := 2,
          outfile := some [] } ∧
    decompress_file zlib_1_2_13 (overtaken abc_stream) junk0 abc_abc_file
      = { error := none, consumed := 76, dispatched := 2,
          outfile := some abc_abc } := by
  decide

/-! ## A container of one record determines the record -/
theorem container_single_inj (r₁ r₂ : Record) (h : container [r₁] = container [r₂])
    (hc₁ : r₁.crc < 2 ^ 32) (hc₂ : r₂.crc < 2 ^ 32) :
    r₁.crc = r₂.crc ∧ r₁.payload = r₂.payload := by
  simp only [container, records_bytes, Record.bytes, List.length_singleton, List.append_nil] at h
  have h1 := List.append_cancel_left (List.append_cancel_left h)
  obtain ⟨_, h2⟩ := List.append_inj h1 (by simp only [toLE_length])
  obtain ⟨_, h3⟩ := List.append_inj h2 (by simp only [toLE_length])
  obtain ⟨h4, h5⟩ := List.append_inj h3 (by simp only [toLE_length])
  have h6 := congrArg fromLE h4
  rw [fromLE_toLE_of_lt (by norm_num; omega), fromLE_toLE_of_lt (by norm_num; omega)] at h6
  exact ⟨h6, h5⟩

/-! ## The message of the integrity error determines the chunk index -/
theorem digit_value_digitChar (d : Nat) (h : d < 10) : digit_value (Nat.digitChar d) = d := by
  interval_cases d <;> rfl

theorem foldl_toDigitsCore (fuel n : Nat) (ds : List Char) (h : n < fuel) :
    List.foldl (fun a c => a * 10 + digit_value c) 0 (Nat.toDigitsCore 10 fuel n ds)
      = List.foldl (fun a c => a * 10 + digit_value c) n ds := by
  induction fuel generalizing n ds with
  | zero => omega
  | succ fuel ih =>
    unfold Nat.toDigitsCore
    simp only
    have hd := digit_value_digitChar (n % 10) (Nat.mod_lt _ (by decide))
    split
    · simp only [List.foldl_cons, hd, Nat.zero_mul, Nat.zero_add]
      have : n % 10 = n := by omega
      rw [this]
    · rw [ih (n / 10) _ (by omega)]
      simp only [List.foldl_cons, hd]
      have : n / 10 * 10 + n % 10 = n := by omega
      rw [this]

/-- The decimal rendering of `std::to_string` determines the number. -/
theorem toString_nat_injective (i j : Nat) (h : toString i = toString j) : i = j := by
  have h1 : Nat.toDigits 10 i = Nat.toDigits 10 j := by
    have : (toString i).data = (toString j).data := by rw [h]
    exact this
  have hi := foldl_toDigitsCore (i + 1) i [] (Nat.lt_succ_self i)
  have hj := foldl_toDigitsCore (j + 1) j [] (Nat.lt_succ_self j)
  simp only [List.foldl_nil] at hi hj
  unfold Nat.toDigits at h1
  rw [← hi, ← hj, h1]

theorem crcMismatch_what_injective (i j : Nat)
    (h : (Error.crcMismatch i).what = (Error.crcMismatch j).what) : i = j := by
  apply toString_nat_injective
  have : ("CRC mismatch for chunk " ++ toString i).data
      = ("CRC mismatch for chunk " ++ toString j).data := by
    show (Error.crcMismatch i).what.data = (Error.crcMismatch j).what.data
    rw [h]
  rw [String.data_append, String.data_append] at this
  exact String.ext (List.append_cancel_left this)

/-! ## The claims -/

/-- C1 (the code at the failing inputs): take a non-empty input of at most one
chunk such that the payload written for what the task read is less than a tenth
of the input length.  If the task of `compress_file` faults the process is
killed.  Otherwise `compress_file` writes a container, and `decompress_file` on
that container does not both return normally and write the input, whatever the
library does and in whatever environment it runs. -/
theorem round_trip_fails (Z : Zlib) (E : Env) (input : List UInt8)
    (hpos : 0 < input.length) (hle : input.length ≤ chunk_size)
    (hratio : ∀ a b, E.compress_view 0 input = some (a, b) →
      10 * (compress_with_zlib Z (fit input.length b)).length < input.length) :
    (E.compress_view 0 input = none → (compress_file Z E input).killed = true) ∧
    (E.compress_view 0 input ≠ none →
      ∃ file, (compress_file Z E input).outfile = some file ∧
        ∀ (E₂ : Env) (J : Junk), ¬ ((decompress_file Z E₂ J file).error = none ∧
          (decompress_file Z E₂ J file).outfile = some input)) := by
  rcases compress_file_single Z E input hpos hle with ⟨hv, hk⟩ | ⟨a, b, hv, hrun⟩
  · exact ⟨fun _ => (by rw [hk]; rfl), fun h => absurd hv h⟩
  · refine ⟨fun h => (by rw [hv] at h; cases h), fun _ =>
      ⟨container [Record.mk input.length (compute_crc Z (fit input.length a))
        (compress_with_zlib Z (fit input.length b))], by rw [hrun], fun E₂ J => ?_⟩⟩
    have hl := compress_with_zlib_length_lt Z (fit input.length b)
    exact decompress_file_single_fails Z E₂ J _ input
      (by show (compress_with_zlib Z (fit input.length b)).length < 2 ^ 64; omega)
      (hratio a b hv)

/-- C1 at a file of 200 zero bytes, the tasks reading their bytes before the
vectors are destroyed.  With the small codec `compress_file` writes a 39-byte
container, with zlib 1.2.13 a 46-byte container; on either `decompress_file`
throws the integrity error of chunk 0 and leaves the output file empty. -/
theorem round_trip_fails_zeros :
    (∃ file, (compress_file rlz intact zeros200).outfile = some file ∧
      ∀ (E₂ : Env) (J : Junk), ¬ ((decompress_file rlz E₂ J file).error = none ∧
          (decompress_file rlz E₂ J file).outfile = some zeros200)) ∧
    (compress_file rlz intact zeros200).outfile = some zeros200_file ∧
    decompress_file rlz intact junk0 zeros200_file
      = { error := some (.crcMismatch 0), consumed := 39, dispatched := 1,
          outfile := some [] } ∧
    (compress_file zlib_1_2_13 intact zeros200).outfile = some zeros200_container ∧
    decompress_file zlib_1_2_13 intact junk0 zeros200_container
      = { error := some (.crcMismatch 0), consumed := 46, dispatched := 1,
          outfile := some [] } :=
  ⟨(round_trip_fails rlz intact zeros200 (by decide!) (by decide!) (by
      intro a b h
      have hb : b = zeros200 := by
        have h2 : some (zeros200, zeros200) = some (a, b) := h
        injection h2 with h3
        injection h3 with _ h4
        exact h4.symm
      rw [hb, fit_self]
      decide!)).2 (by
      intro h
      have h2 : some (zeros200, zeros200) = (none : Option (List UInt8 × List UInt8)) := h
      cases h2),
    by rw [compress_file_zeros200], by decide!,
    by rw [compress_file_zeros200_zlib], decompress_file_zeros200_zlib⟩

/-- C2: for every input, the chunk count that `compress_file` computes is
`ceil(n / chunk_size)` with `chunk_size` = 1 MiB.  In every environment the run
is either killed by a faulting task or returns normally, having started that
many tasks and written the magic, the count in 8 bytes, and that many records.
The empty input gives count 0 and, in every environment, a container that ends
after the header; the input `abc` gives count 1. -/
theorem chunk_count_is_ceil (Z : Zlib) (E : Env) (input : List UInt8) :
    chunk_size = 1048576 ∧
    total_chunks chunk_size input.length = ⌈(input.length : ℚ) / (chunk_size : ℚ)⌉₊ ∧
    ((compress_file Z E input).killed = true ∨
      ((compress_file Z E input).error = none ∧
        (compress_file Z E input).dispatched = ⌈(input.length : ℚ) / (chunk_size : ℚ)⌉₊ ∧
        ∃ records : List Record,
          records.length = ⌈(input.length : ℚ) / (chunk_size : ℚ)⌉₊ ∧
          (compress_file Z E input).outfile
            = some (MYCOMP ++ (toLE 8 ⌈(input.length : ℚ) / (chunk_size : ℚ)⌉₊
                ++ records_bytes records)))) ∧
    fromLE (toLE 8 (total_chunks chunk_size input.length))
      = total_chunks chunk_size input.length % 2 ^ 64 ∧
    total_chunks chunk_size 0 = 0 ∧
    compress_file Z E []
      = { error := none, consumed := 0, dispatched := 0,
          outfile := some (MYCOMP ++ toLE 8 0) } ∧
    total_chunks chunk_size abc.length = 1 := by
  have hceil := total_chunks_eq_ceil chunk_size_pos input.length
  unfold spec_chunk_count at hceil
  refine ⟨by decide, hceil, ?_, ?_, by decide, ?_, by decide⟩
  · rcases compress_file_with_records Z E chunk_size_pos chunk_size_lt input with h | h
    · left
      show (compress_file_with Z E chunk_size input).killed = true
      rw [h.1]
      rfl
    · right
      obtain ⟨records, hlen, hrun, _⟩ := h
      have hrun2 : compress_file Z E input = _ := hrun
      rw [hrun2]
      refine ⟨rfl, hceil, records, by rw [hlen, hceil], ?_⟩
      simp only [container, hlen, hceil]
  · rw [fromLE_toLE]; norm_num
  · rcases compress_file_with_records Z E chunk_size_pos chunk_size_lt [] with h | h
    · obtain ⟨_, j, hj, _⟩ := h
      have h0 : total_chunks chunk_size ([] : List UInt8).length = 0 := by decide
      rw [h0] at hj
      exact absurd hj (Nat.not_lt_zero j)
    · obtain ⟨records, hlen, hrun, _⟩ := h
      have h0 : total_chunks chunk_size ([] : List UInt8).length = 0 := by decide
      rw [h0] at hlen hrun
      have hnil : records = [] := List.eq_nil_of_length_eq_zero hlen
      have hrun2 : compress_file Z E [] = _ := hrun
      rw [hrun2, hnil]
      simp [container, records_bytes]

/-- C3: for a non-empty input and a chunk index `i` below the chunk count, the
length `compress_file` reads for chunk `i` is `chunk_size` when `i` is not the
last index and `n - i * chunk_size` when it is; it lies in `[1, chunk_size]`, it
is the length of the chunk handed to task `i`, and it is the `original_size` that
the task returns when it does not fault.  In every environment the run is either
killed by a faulting task or writes a container whose record `i` carries this
length as `original_size`; for an input of `2 * chunk_size` bytes the records
have original sizes `chunk_size` and `chunk_size`. -/
theorem chunk_lengths (Z : Zlib) (E : Env) (input : List UInt8) (i : Nat)
    (hn : 0 < input.length) (hi : i < total_chunks chunk_size input.length) :
    read_size chunk_size input.length (total_chunks chunk_size input.length) i
      = (if i + 1 = total_chunks chunk_size input.length
          then input.length - i * chunk_size else chunk_size) ∧
    1 ≤ read_size chunk_size input.length (total_chunks chunk_size input.length) i ∧
    read_size chunk_size input.length (total_chunks chunk_size input.length) i ≤ chunk_size ∧
    (compress_futures Z E input)[i]?
      = some (compress_task Z E i (spec_chunk chunk_size input i)) ∧
    (spec_chunk chunk_size input i).length
      = read_size chunk_size input.length (total_chunks chunk_size input.length) i ∧
    (∀ c, compress_task Z E i (spec_chunk chunk_size input i) = some c →
      c.original_size
        = read_size chunk_size input.length (total_chunks chunk_size input.length) i) ∧
    ((compress_file Z E input).killed = true ∨
      ∃ records : List Record,
        (compress_file Z E input).outfile = some (container records) ∧
        (records[i]?).map Record.original_size
          = some (read_size chunk_size input.length (total_chunks chunk_size input.length) i) ∧
        (input.length = 2 * chunk_size →
          records.map Record.original_size = [chunk_size, chunk_size])) := by
  obtain ⟨_, h2, h3, _, _, h6⟩ := read_size_chunk chunk_size_pos input i hi
  have hf := compress_futures_eq Z E input
  refine ⟨?_, h3, h2, ?_, h6.symm, ?_, ?_⟩
  · unfold read_size
    have : (i = total_chunks chunk_size input.length - 1)
        ↔ (i + 1 = total_chunks chunk_size input.length) := by omega
    simp only [this]
  · rw [hf, List.getElem?_map, List.getElem?_range hi]
    rfl
  · intro c hc
    rw [(compress_task_sizes Z E i _ c hc).1]
    exact h6.symm
  · rcases compress_file_with_records Z E chunk_size_pos chunk_size_lt input with h | h
    · left
      show (compress_file_with Z E chunk_size input).killed = true
      rw [h.1]
      rfl
    · right
      obtain ⟨records, hlen, hrun, hrec⟩ := h
      have hrun2 : compress_file Z E input = _ := hrun
      refine ⟨records, by rw [hrun2], ?_, ?_⟩
      · obtain ⟨a, b, _, hget⟩ := hrec i hi
        rw [hget, Option.map_some']
        exact congrArg some h6.symm
      · intro h2cs
        have htc : total_chunks chunk_size input.length = 2 := by
          rw [h2cs]; decide
        have hl0 : (spec_chunk chunk_size input 0).length = chunk_size := by
          simp only [spec_chunk, Nat.zero_mul, List.drop_zero, List.length_take, h2cs]
          omega
        have hl1 : (spec_chunk chunk_size input 1).length = chunk_size := by
          simp only [spec_chunk, Nat.one_mul, List.length_take, List.length_drop, h2cs]
          omega
        obtain ⟨a0, b0, _, hget0⟩ := hrec 0 (by rw [htc]; decide)
        obtain ⟨a1, b1, _, hget1⟩ := hrec 1 (by rw [htc]; decide)
        rw [htc] at hlen
        match records, hlen, hget0, hget1 with
        | [r0, r1], _, hget0, hget1 =>
          simp only [List.getElem?_cons_zero, List.getElem?_cons_succ, Option.some.injEq]
            at hget0 hget1
          rw [hget0, hget1]
          simp only [List.map_cons, List.map_nil, hl0, hl1]

/-- C3 at a file of `2 * chunk_size` zero bytes and its last chunk index 1, the
tasks reading their chunks before the vectors are destroyed: the run is not
killed and the two records written have original sizes `chunk_size` and
`chunk_size`. -/
theorem chunk_lengths_two_chunks :
    read_size chunk_size (2 * chunk_size) 2 1 = chunk_size ∧
    (compress_file rlz intact (List.replicate (2 * chunk_size) 0)).killed = false ∧
    ∃ records : List Record,
      (compress_file rlz intact (List.replicate (2 * chunk_size) 0)).outfile
        = some (container records) ∧
      records.map Record.original_size = [chunk_size, chunk_size] := by
  have hlen : (List.replicate (2 * chunk_size) (0 : UInt8)).length = 2 * chunk_size :=
    List.length_replicate _ _
  have htc : total_chunks chunk_size (List.replicate (2 * chunk_size) (0 : UInt8)).length = 2 := by
    rw [hlen]; decide
  have h := chunk_lengths rlz intact (List.replicate (2 * chunk_size) 0) 1
    (by rw [hlen]; decide) (by rw [htc]; decide)
  have hrun := compress_file_with_eq rlz intact chunk_size_pos chunk_size_lt
    (List.replicate (2 * chunk_size) 0) (fun _ _ => rfl)
  have hk : (compress_file rlz intact (List.replicate (2 * chunk_size) 0)).killed = false := by
    show (compress_file_with rlz intact chunk_size _).killed = false
    rw [hrun]
  refine ⟨by decide, hk, ?_⟩
  rcases h.2.2.2.2.2.2 with hkill | ⟨records, hout, _, h2⟩
  · rw [hk] at hkill
    cases hkill
  · exact ⟨records, hout, h2 hlen⟩

/-- C4 (amended), stated for any chunk size `cs` (the source's is `chunk_size`):
take an input whose tasks in `compress_file` read their chunks before the
vectors are destroyed, so that the container of the specification is written; a
chunk index `i` such that the chunks before `i` pass their check; and flip one
bit inside the payload of chunk `i`.  Let `decompress_file` run where the
vectors can be constructed, the tasks up to `i` read their payloads before the
vectors are destroyed and no later task faults.  If the altered payload decodes
to bytes whose checksum differs from the stored one, `decompress_file` throws
the integrity error naming `i`, and the output holds the decoded chunks before
`i` and no byte of chunk `i` or a later chunk.  If the checksum of the decoded
bytes is unchanged, no integrity error naming `i` is thrown. -/
theorem payload_bit_flip (Z : Zlib) (E E₂ : Env) (J : Junk) (cs : Nat) (input : List UInt8)
    (i k : Nat) (hcs : 0 < cs) (hcs2 : cs < 2 ^ 63)
    (hi : i < total_chunks cs input.length)
    (hk : k < 8 * (spec_record Z cs input i).payload.length)
    (hpre : ∀ j < i, (spec_record Z cs input j).checks Z)
    (hvc : ∀ j < total_chunks cs input.length,
      E.compress_view j (spec_chunk cs input j)
        = some (spec_chunk cs input j, spec_chunk cs input j))
    (hfa : vector_alloc E₂.heap sizeof_future (total_chunks cs input.length) = none)
    (ha : ∀ j < total_chunks cs input.length,
      vector_alloc E₂.heap 1 (spec_record Z cs input j).payload.length = none)
    (hvpre : ∀ j < i, E₂.decompress_view j (spec_record Z cs input j).payload
      = some (spec_record Z cs input j).payload)
    (hvi : E₂.decompress_view i (flip_bit (spec_record Z cs input i).payload k)
      = some (flip_bit (spec_record Z cs input i).payload k))
    (hvpost : ∀ j, i < j → j < total_chunks cs input.length →
      E₂.decompress_view j (spec_record Z cs input j).payload ≠ none) :
    ∃ file, (compress_file_with Z E cs input).outfile = some file ∧
      file = container (spec_records Z cs input) ∧
      (compute_crc Z (decompress_with_zlib Z
            (flip_bit (spec_record Z cs input i).payload k))
          ≠ (spec_record Z cs input i).crc →
        decompress_file Z E₂ J
            (flip_bit file (8 * payload_offset (spec_records Z cs input) i + k))
          = { error := some (.crcMismatch i),
              consumed := file.length,
              dispatched := total_chunks cs input.length,
              outfile := some (decoded_bytes Z
                ((List.range i).map (spec_record Z cs input))) }) ∧
      (compute_crc Z (decompress_with_zlib Z
            (flip_bit (spec_record Z cs input i).payload k))
          = (spec_record Z cs input i).crc →
        (decompress_file Z E₂ J
            (flip_bit file (8 * payload_offset (spec_records Z cs input) i + k))).error
          ≠ some (.crcMismatch i)) := by
  have hrun := compress_file_with_eq Z E hcs hcs2 input hvc
  have hlen := spec_records_length Z hcs input
  obtain ⟨hsplit, _⟩ := spec_records_split Z hcs input i hi
  have hcrc : (spec_record Z cs input i).crc % 2 ^ 32
      = (spec_record Z cs input i).crc := compute_crc_mod Z _
  have hpl : ∀ x ∈ spec_records Z cs input, vector_alloc E₂.heap 1 x.payload.length = none := by
    intro x hx
    obtain ⟨j, hj, hget⟩ := List.getElem_of_mem hx
    have hget2 : (spec_records Z cs input)[j]? = some x := by
      rw [List.getElem?_eq_getElem hj, hget]
    obtain ⟨hjlt, hxe⟩ := spec_records_getElem? Z hcs input j x hget2
    rw [hxe]
    exact ha j hjlt
  have hpre2 : ∀ x ∈ (List.range i).map (spec_record Z cs input), x.checks Z := by
    intro x hx
    simp only [List.mem_map, List.mem_range] at hx
    obtain ⟨j, hj, hx⟩ := hx
    rw [← hx]
    exact hpre j hj
  have hvpre2 : ∀ j x, ((List.range i).map (spec_record Z cs input))[j]? = some x →
      E₂.decompress_view j x.payload = some x.payload := by
    intro j x hx
    rw [List.getElem?_map] at hx
    by_cases hj : j < i
    · rw [List.getElem?_range hj] at hx
      simp only [Option.map_some', Option.some.injEq] at hx
      rw [← hx]
      exact hvpre j hj
    · rw [List.getElem?_eq_none (by simp only [List.length_range]; omega)] at hx
      simp at hx
  have hil : ((List.range i).map (spec_record Z cs input)).length = i := by
    simp only [List.length_map, List.length_range]
  have hvpost2 : ∀ j x, ((spec_records Z cs input).drop (i + 1))[j]? = some x →
      E₂.decompress_view (((List.range i).map (spec_record Z cs input)).length + 1 + j)
        x.payload ≠ none := by
    intro j x hx
    rw [List.getElem?_drop] at hx
    obtain ⟨hjlt, hxe⟩ := spec_records_getElem? Z hcs input _ x hx
    rw [hil, hxe, show i + 1 + j = i + 1 + j from rfl]
    exact hvpost (i + 1 + j) (by omega) hjlt
  have hflip := decompress_file_flip Z E₂ J ((List.range i).map (spec_record Z cs input))
    (spec_record Z cs input i) ((spec_records Z cs input).drop (i + 1)) k
    (by rw [← hsplit, hlen]; exact hfa) (by rw [← hsplit]; exact hpl) hk hpre2 hvpre2
    (by rw [hil]; exact hvi) hvpost2
  rw [← hsplit, hcrc, hlen] at hflip
  simp only [List.length_map, List.length_range] at hflip
  exact ⟨container (spec_records Z cs input), by rw [hrun], rfl, hflip.1, hflip.2⟩

/-- C4 with zlib 1.2.13, all tasks reading their bytes before the vectors are
destroyed.  In the container of `abc`, bit 0 of payload byte 3 (file offset 37,
inside the code of the literal `a`) is flipped: the run ends with the integrity
error of chunk 0 and an empty output file.  In the container of `abcabc` cut
into chunks of 3 bytes, the same bit of the payload of chunk 1 (file offset 68)
is flipped: the run ends with the integrity error of chunk 1 after the decoded
chunk 0 was written. -/
theorem payload_bit_flip_abc :
    (compress_file zlib_1_2_13 intact abc).outfile = some abc_file ∧
    payload_offset (spec_records zlib_1_2_13 chunk_size abc) 0 = 34 ∧
    decompress_file zlib_1_2_13 intact junk0 (flip_bit abc_file (8 * 34 + 24))
      = { error := some (.crcMismatch 0), consumed := 45, dispatched := 1,
          outfile := some [] } ∧
    (compress_file_with zlib_1_2_13 intact 3 abc_abc).outfile = some abc_abc_file ∧
    payload_offset (spec_records zlib_1_2_13 3 abc_abc) 1 = 65 ∧
    decompress_file zlib_1_2_13 intact junk0 (flip_bit abc_abc_file (8 * 65 + 24))
      = { error := some (.crcMismatch 1), consumed := 76, dispatched := 2,
          outfile := some abc } := by
  obtain ⟨file, hfile, _, h1, _⟩ := payload_bit_flip zlib_1_2_13 intact intact junk0
    chunk_size abc 0 24 chunk_size_pos chunk_size_lt (by decide) (by decide)
    (fun j hj => absurd hj (Nat.not_lt_zero j)) (fun _ _ => rfl) (by decide)
    (fun j _ => vector_alloc_intact _ (compress_with_zlib_length_lt _ _))
    (fun _ _ => rfl) rfl (fun _ _ _ => Option.some_ne_none _)
  obtain ⟨file2, hfile2, _, h3, _⟩ := payload_bit_flip zlib_1_2_13 intact intact junk0
    3 abc_abc 1 24 (by decide) (by decide) (by decide) (by decide)
    (fun j hj => by
      have hj0 : j = 0 := by omega
      subst hj0
      unfold Record.checks
      decide)
    (fun _ _ => rfl) (by decide)
    (fun j _ => vector_alloc_intact _ (compress_with_zlib_length_lt _ _))
    (fun _ _ => rfl) rfl (fun _ _ _ => Option.some_ne_none _)
  have hout : (compress_file zlib_1_2_13 intact abc).outfile = some abc_file := by decide
  have hout2 : (compress_file_with zlib_1_2_13 intact 3 abc_abc).outfile
      = some abc_abc_file := by decide
  have hoff : payload_offset (spec_records zlib_1_2_13 chunk_size abc) 0 = 34 := by
    simp [payload_offset, records_bytes]
  have hrecs : spec_records zlib_1_2_13 3 abc_abc = [abc_record, abc_record] := by
    unfold spec_records
    rw [← total_chunks_eq_ceil (by decide)]
    decide
  have hoff2 : payload_offset (spec_records zlib_1_2_13 3 abc_abc) 1 = 65 := by
    rw [hrecs]
    decide
  have hfa : file = abc_file := by
    have hfile' : (compress_file zlib_1_2_13 intact abc).outfile = some file := hfile
    rw [hfile'] at hout
    exact Option.some.inj hout
  have hfa2 : file2 = abc_abc_file := by
    rw [hfile2] at hout2
    exact Option.some.inj hout2
  have h2 := h1 (by decide)
  have h4 := h3 (by decide)
  rw [hoff, hfa] at h2
  rw [hoff2, hfa2] at h4
  exact ⟨hout, hoff, h2, hout2, hoff2, h4⟩

/-- C4 (counterexample) with zlib 1.2.13, the tasks reading their bytes before
the vectors are destroyed.  In the container of `abc` the payload is the last 11
bytes.  Flipping bit 2 of payload byte 6 (a padding bit behind the end of the
deflate block, file offset 40) changes the file, yet `decompress_file` returns
normally and writes `abc`.  The same holds for bit 0 of payload byte 10 (in the
Adler-32 of the stream, file offset 44). -/
theorem padding_bit_flip_undetected :
    (compress_file zlib_1_2_13 intact abc).outfile = some abc_file ∧
    abc_file.drop 34 = (compress_chunk zlib_1_2_13 0 abc).compressed_data ∧
    flip_bit abc_file (8 * 34 + 50) ≠ abc_file ∧
    decompress_file zlib_1_2_13 intact junk0 (flip_bit abc_file (8 * 34 + 50))
      = { error := none, consumed := 45, dispatched := 1, outfile := some abc } ∧
    flip_bit abc_file (8 * 34 + 80) ≠ abc_file ∧
    decompress_file zlib_1_2_13 intact junk0 (flip_bit abc_file (8 * 34 + 80))
      = { error := none, consumed := 45, dispatched := 1, outfile := some abc } := by
  decide

/-- C5: when the first 6 bytes of the input differ from `"MYCOMP"`,
`decompress_file` throws "Invalid file format." having extracted only those 6
bytes (so before `chunk_count` is read), with no task started and the output file
not opened, in every environment. -/
theorem bad_magic_rejected (Z : Zlib) (E : Env) (J : Junk) (input : List UInt8)
    (hlen : 6 ≤ input.length) (hmagic : input.take 6 ≠ MYCOMP) :
    decompress_file Z E J input
      = { error := some .invalidFormat, consumed := 6, dispatched := 0, outfile := none } ∧
    Error.invalidFormat.what = "Invalid file format." := by
  refine ⟨?_, rfl⟩
  have h1 : IStream.read ⟨input, true⟩ J.magic 6
      = (⟨input.drop 6, true⟩, input.take 6 ++ J.magic.drop 6, 6) :=
    IStream.read_take input J.magic 6 hlen
  have hl6 : (input.take 6).length = 6 := by simp [hlen]
  have ht : (input.take 6 ++ J.magic.drop 6).take 6 = input.take 6 := by
    rw [List.take_append_of_le_length (by omega), List.take_of_length_le (by omega)]
  have hne : strncmp ((input.take 6 ++ J.magic.drop 6).take 6) MYCOMP 6 ≠ 0 := by
    rw [ht]
    exact fun h => hmagic ((strncmp_magic _ hl6).mp h)
  have hc : input.length - (input.drop 6).length = 6 := by
    simp only [List.length_drop]; omega
  unfold decompress_file
  conv_lhs => zeta
  rw [h1]
  show (if strncmp ((input.take 6 ++ J.magic.drop 6).take 6) MYCOMP 6 ≠ 0 then _ else _) = _
  rw [if_pos hne]
  show Outcome.mk _ (input.length - (input.drop 6).length) _ _ _ = _
  rw [hc]

/-- C5 at the 6-byte file `"MYCOMQ"`, with the small codec and with zlib 1.2.13,
also where every task would fault. -/
theorem bad_magic_rejected_example :
    decompress_file rlz intact junk0 [77, 89, 67, 79, 77, 81]
      = { error := some .invalidFormat, consumed := 6, dispatched := 0, outfile := none } ∧
    decompress_file zlib_1_2_13 unmapped junk0 [77, 89, 67, 79, 77, 81]
      = { error := some .invalidFormat, consumed := 6, dispatched := 0, outfile := none } :=
  ⟨(bad_magic_rejected rlz intact junk0 [77, 89, 67, 79, 77, 81] (by decide) (by decide)).1,
    by decide⟩

/-- C6 (counterexample) with zlib 1.2.13: a record whose `original_size` field is
999 and whose payload is the stream of `abc` with the checksum of `abc`.
`decompress_chunk` succeeds with 3 bytes, so does the task that
`decompress_file` starts for the record, and `decompress_file` accepts the
container and writes `abc`. -/
theorem original_size_ignored :
    abc_record_999.original_size = 999 ∧
    decompress_chunk zlib_1_2_13 0 abc_record_999.payload abc_record_999.crc = .ok abc ∧
    decompress_task zlib_1_2_13 intact 0 abc_record_999.payload (abc_record_999.crc % 2 ^ 32)
      = some (.ok abc) ∧
    abc.length = 3 ∧
    decompress_file zlib_1_2_13 intact junk0 (container [abc_record_999])
      = { error := none, consumed := 45, dispatched := 1, outfile := some abc } := by
  have hc : abc_record_999.checks zlib_1_2_13 := by
    show compute_crc zlib_1_2_13 (decompress_with_zlib zlib_1_2_13 abc_record_999.payload)
      = abc_record_999.crc % 2 ^ 32
    decide
  have h := decompress_chunk_of_checks zlib_1_2_13 0 abc_record_999 hc
  have h1 : abc_record_999.crc % 2 ^ 32 = abc_record_999.crc := by decide
  have h2 : decompress_with_zlib zlib_1_2_13 abc_record_999.payload = abc := by decide
  rw [h2] at h
  refine ⟨rfl, ?_, ?_, rfl, by decide⟩
  · rw [h1] at h
    exact h
  · rw [decompress_task_intact zlib_1_2_13 intact 0 _ _ rfl, h]

/-- C6 (amended): whenever `decompress_chunk` succeeds for a record, the bytes it
returns are the decoded payload and carry the record's checksum; the same holds
for the task that `decompress_file` starts for the record, with the payload
bytes the task read; the `original_size` field is not consulted.  For the record
that `compress_chunk` writes from a chunk that `decompress_with_zlib` recovers
from its payload, `decompress_chunk` succeeds with the chunk itself, which has
`original_size` bytes. -/
theorem decompress_chunk_size (Z : Zlib) (i : Nat) (raw : List UInt8)
    (hdec : decompress_with_zlib Z (compress_with_zlib Z raw) = raw) :
    (decompress_chunk Z i (compress_chunk Z i raw).compressed_data (compress_chunk Z i raw).crc
        = .ok raw ∧
      raw.length = (compress_chunk Z i raw).original_size) ∧
    (∀ (r : Record) (d : List UInt8), decompress_chunk Z i r.payload r.crc = .ok d →
      d = decompress_with_zlib Z r.payload ∧ compute_crc Z d = r.crc) ∧
    (∀ (E : Env) (r : Record) (d : List UInt8),
      decompress_task Z E i r.payload (r.crc % 2 ^ 32) = some (.ok d) →
      ∃ found, E.decompress_view i r.payload = some found ∧
        d = decompress_with_zlib Z (fit r.payload.length found) ∧
        compute_crc Z d = r.crc % 2 ^ 32) := by
  have hok : ∀ (payload : List UInt8) (c : Nat) (d : List UInt8),
      decompress_chunk Z i payload c = .ok d →
      d = decompress_with_zlib Z payload ∧ compute_crc Z d = c := by
    intro payload c d hd
    rcases decompress_chunk_cases Z i payload c with hc | hc
    · rw [hc] at hd
      cases hd
    · rw [hc.1] at hd
      have hd2 : decompress_with_zlib Z payload = d := by injection hd
      rw [← hd2]
      exact ⟨rfl, hc.2⟩
  refine ⟨⟨?_, rfl⟩, fun r d hd => hok r.payload r.crc d hd, ?_⟩
  · show (if compute_crc Z (decompress_with_zlib Z (compress_with_zlib Z raw))
        ≠ compute_crc Z raw then _ else _) = _
    rw [hdec, if_neg (not_not.mpr rfl)]
    show Except.ok (decompress_with_zlib Z (compress_with_zlib Z raw)) = _
    rw [hdec]
  · intro E r d hd
    obtain ⟨found, hv, hx⟩ := decompress_task_some Z E i _ _ _ hd
    obtain ⟨h1, h2⟩ := hok _ _ d hx.symm
    exact ⟨found, hv, h1, h2⟩

/-- C6 at the chunk `abc` with zlib 1.2.13. -/
theorem decompress_chunk_size_abc :
    decompress_chunk zlib_1_2_13 0 (compress_chunk zlib_1_2_13 0 abc).compressed_data
        (compress_chunk zlib_1_2_13 0 abc).crc = .ok abc ∧
    abc.length = (compress_chunk zlib_1_2_13 0 abc).original_size :=
  (decompress_chunk_size zlib_1_2_13 0 abc (by decide)).1

/-- C7 (the code at the failing inputs): `decompress_with_zlib` never returns
more than ten times the compressed length, whatever the library does, so raw
bytes that `compress_with_zlib` shrinks by more than 10x do not come back. -/
theorem decompress_with_zlib_capped (Z : Zlib) (raw : List UInt8)
    (hratio : 10 * (compress_with_zlib Z raw).length < raw.length) :
    (decompress_with_zlib Z (compress_with_zlib Z raw)).length
        ≤ 10 * (compress_with_zlib Z raw).length ∧
    decompress_with_zlib Z (compress_with_zlib Z raw) ≠ raw := by
  exact ⟨decompress_with_zlib_length_le Z (compress_with_zlib Z raw),
    decompress_with_zlib_ne Z raw hratio⟩

/-- C7 at 200 zero bytes.  With the small codec the stream has 5 bytes and only
the first 50 zero bytes come back; with zlib 1.2.13 the stream has 12 bytes and
only the first 120 zero bytes come back. -/
theorem decompress_with_zlib_capped_zeros :
    rlz.inflate (rlz.deflate zeros200) = zeros200 ∧
    compress_with_zlib rlz zeros200 = [1, 200, 0, 0, 0] ∧
    decompress_with_zlib rlz (compress_with_zlib rlz zeros200) = List.replicate 50 0 ∧
    decompress_with_zlib rlz (compress_with_zlib rlz zeros200) ≠ zeros200 ∧
    zlib_1_2_13.inflate (zlib_1_2_13.deflate zeros200) = zeros200 ∧
    compress_with_zlib zlib_1_2_13 zeros200 = [120, 156, 99, 96, 24, 30, 0, 0, 0, 200, 0, 1] ∧
    decompress_with_zlib zlib_1_2_13 (compress_with_zlib zlib_1_2_13 zeros200)
      = List.replicate 120 0 :=
  ⟨rlz_lawful.inflate_deflate zeros200, by decide!, by decide!,
    (decompress_with_zlib_capped rlz zeros200 (by decide!)).2, by decide!, by decide!,
    by decide!⟩

/-- C8: `decompress_chunk` with index `i`, a payload and a checksum `c` throws
exactly when the checksum of the decoded bytes differs from `c`; the exception is
then the integrity error of chunk `i`, whose message ends in the decimal form of
`i` and belongs to no other index; otherwise the result is the decoded bytes,
unchanged. -/
theorem decompress_chunk_checks_crc (Z : Zlib) (i : Nat) (payload : List UInt8) (c : Nat) :
    ((∃ e, decompress_chunk Z i payload c = .error e)
      ↔ compute_crc Z (decompress_with_zlib Z payload) ≠ c) ∧
    (compute_crc Z (decompress_with_zlib Z payload) ≠ c →
      decompress_chunk Z i payload c = .error (.crcMismatch i)) ∧
    (compute_crc Z (decompress_with_zlib Z payload) = c →
      decompress_chunk Z i payload c = .ok (decompress_with_zlib Z payload)) ∧
    (Error.crcMismatch i).what = "CRC mismatch for chunk " ++ toString i ∧
    (∀ j, (Error.crcMismatch i).what = (Error.crcMismatch j).what → i = j) := by
  have hbad : compute_crc Z (decompress_with_zlib Z payload) ≠ c →
      decompress_chunk Z i payload c = .error (.crcMismatch i) := by
    intro h
    show (if compute_crc Z (decompress_with_zlib Z payload) ≠ c then _ else _) = _
    rw [if_pos h]
  have hgood : compute_crc Z (decompress_with_zlib Z payload) = c →
      decompress_chunk Z i payload c = .ok (decompress_with_zlib Z payload) := by
    intro h
    show (if compute_crc Z (decompress_with_zlib Z payload) ≠ c then _ else _) = _
    rw [if_neg (not_not.mpr h)]
  refine ⟨⟨?_, fun h => ⟨_, hbad h⟩⟩, hbad, hgood, rfl, crcMismatch_what_injective i⟩
  rintro ⟨e, he⟩ heq
  rw [hgood heq] at he
  cases he

/-- C9 (counterexample): a file with the magic, chunk count 1, and a record that
states a `compressed_size` of `2 ^ 63` with no payload byte behind it.  The
stated size exceeds the bytes left, yet `decompress_file` does not throw "Failed
to read compressed data.": constructing the payload vector throws
`std::length_error` before anything is read. -/
theorem huge_compressed_size_length_error :
    ([] : List UInt8).length < 2 ^ 63 ∧
    decompress_file zlib_1_2_13 intact junk0
        (MYCOMP ++ (toLE 8 1 ++ (toLE 8 0 ++ (toLE 8 (2 ^ 63) ++ (toLE 4 0 ++ [])))))
      = { error := some .lengthError, consumed := 34, dispatched := 0, outfile := some [] } ∧
    Error.lengthError.what = "cannot create std::vector larger than max_size()" ∧
    Error.lengthError ≠ Error.readCompressed := by
  decide

/-- C9 (amended): when the file holds the magic, a chunk count, some complete
records, and then fewer than `chunk_count` records later a record whose stated
`compressed_size` exceeds the number of bytes left in the file; the vectors for
the chunk count, for the payloads of the complete records and for the stated
`compressed_size` can be constructed; and no task of the complete records
faults: then `decompress_file` throws "Failed to read compressed data." and the
output file is left empty: nothing decoded is written, although the tasks of the
earlier records were started. -/
theorem short_payload_rejected (Z : Zlib) (E : Env) (J : Junk) (tc : Nat) (recs : List Record)
    (os csz crc : Nat) (tail : List UInt8)
    (hfa : vector_alloc E.heap sizeof_future tc = none) (hcount : recs.length < tc)
    (ha : ∀ r ∈ recs, vector_alloc E.heap 1 r.payload.length = none)
    (hac : vector_alloc E.heap 1 csz = none) (hshort : tail.length < csz)
    (hv : ∀ j r, recs[j]? = some r → E.decompress_view j r.payload ≠ none) :
    (decompress_file Z E J (MYCOMP ++ (toLE 8 tc ++ (records_bytes recs
        ++ (toLE 8 os ++ (toLE 8 csz ++ (toLE 4 crc ++ tail))))))).error
      = some .readCompressed ∧
    (decompress_file Z E J (MYCOMP ++ (toLE 8 tc ++ (records_bytes recs
        ++ (toLE 8 os ++ (toLE 8 csz ++ (toLE 4 crc ++ tail))))))).outfile = some [] ∧
    (decompress_file Z E J (MYCOMP ++ (toLE 8 tc ++ (records_bytes recs
        ++ (toLE 8 os ++ (toLE 8 csz ++ (toLE 4 crc ++ tail))))))).dispatched
      = recs.length ∧
    (decompress_file Z E J (MYCOMP ++ (toLE 8 tc ++ (records_bytes recs
        ++ (toLE 8 os ++ (toLE 8 csz ++ (toLE 4 crc ++ tail))))))).killed = false ∧
    Error.readCompressed.what = "Failed to read compressed data." := by
  have htc : tc < 2 ^ 64 := vector_alloc_future_lt hfa
  have hfrom : fromLE (toLE 8 tc) = tc := fromLE_toLE_of_lt (by norm_num; omega)
  obtain ⟨k, hk⟩ : ∃ k, tc = recs.length + (k + 1) := ⟨tc - recs.length - 1, by omega⟩
  have hd := decompress_dispatch_records Z E J recs (k + 1) 0
    (toLE 8 os ++ (toLE 8 csz ++ (toLE 4 crc ++ tail))) ha
  have hs := decompress_dispatch_short Z E J os csz crc k (0 + recs.length) tail hac hshort
  have hs1 := congrArg Prod.fst hs
  have hs2 := congrArg Prod.snd hs
  simp only at hs1 hs2
  obtain ⟨xs, hxs⟩ := decompress_futures_joined Z E 0 recs (by
    intro j r hr
    rw [Nat.zero_add]
    exact hv j r hr)
  rw [decompress_file_header Z E J _ _ (toLE_length 8 _) (by rw [hfrom]; exact hfa), hfrom, hk,
    hd]
  simp only [hs1, hs2, List.append_nil, hxs, decompress_futures_length, and_self, true_and]
  rfl

/-- C9 with zlib 1.2.13 at a file with chunk count 2, the complete record of
`abc`, and a second record that states 11 payload bytes with only 2 present. -/
theorem short_payload_rejected_example :
    (decompress_file zlib_1_2_13 intact junk0 (MYCOMP ++ (toLE 8 2
        ++ (records_bytes [abc_record]
        ++ (toLE 8 3 ++ (toLE 8 11 ++ (toLE 4 0 ++ [120, 156]))))))).error
      = some .readCompressed ∧
    (decompress_file zlib_1_2_13 intact junk0 (MYCOMP ++ (toLE 8 2
        ++ (records_bytes [abc_record]
        ++ (toLE 8 3 ++ (toLE 8 11 ++ (toLE 4 0 ++ [120, 156]))))))).outfile = some [] :=
  have h := short_payload_rejected zlib_1_2_13 intact junk0 2 [abc_record] 3 11 0 [120, 156]
    (by decide) (by decide) (by decide) (by decide) (by decide)
    (fun _ _ _ => Option.some_ne_none _)
  ⟨h.1, h.2.1⟩

/-- C10 (the code at the failing inputs): take a non-empty input of at most one
chunk, and an environment in which the task of `compress_file` faults or finds,
where the destroyed vector was, bytes with another checksum or another encoding
than the chunk.  Then what `compress_file` leaves is not the container of the
specification, and when the task faults the process is killed. -/
theorem compress_file_layout_fails (Z : Zlib) (E : Env) (input : List UInt8)
    (hpos : 0 < input.length) (hle : input.length ≤ chunk_size)
    (hview : ∀ a b, E.compress_view 0 input = some (a, b) →
      compute_crc Z (fit input.length a) ≠ compute_crc Z input ∨
      compress_with_zlib Z (fit input.length b) ≠ compress_with_zlib Z input) :
    (compress_file Z E input).outfile ≠ some (container (spec_records Z chunk_size input)) ∧
    (E.compress_view 0 input = none → (compress_file Z E input).killed = true) := by
  rcases compress_file_single Z E input hpos hle with ⟨hv, hk⟩ | ⟨a, b, hv, hrun⟩
  · refine ⟨?_, fun _ => (by rw [hk]; rfl)⟩
    rw [hk]
    intro h
    simp [killed_run] at h
  · refine ⟨?_, fun h => (by rw [hv] at h; cases h)⟩
    rw [hrun, spec_records_single Z input hpos hle]
    intro h
    have h1 : container [Record.mk input.length (compute_crc Z (fit input.length a))
        (compress_with_zlib Z (fit input.length b))]
        = container [Record.mk input.length (compute_crc Z input)
            (compress_with_zlib Z input)] := Option.some.inj h
    obtain ⟨hc, hp⟩ := container_single_inj _ _ h1
      (Nat.mod_lt _ (by norm_num)) (Nat.mod_lt _ (by norm_num))
    rcases hview a b hv with h2 | h2
    · exact h2 hc
    · exact h2 hp

/-- C10 at the file `abc` with zlib 1.2.13.  The specification asks for the
45-byte container `abc_file`.  Where the block of the destroyed vector was handed
out again and zeroed before the task read it, `compress_file` writes the checksum
and the encoding of three zero bytes instead; where the block was returned to the
system the process is killed. -/
theorem compress_file_layout_fails_abc :
    (compress_file zlib_1_2_13 reused abc).outfile
      ≠ some (container (spec_records zlib_1_2_13 chunk_size abc)) ∧
    container (spec_records zlib_1_2_13 chunk_size abc) = abc_file ∧
    compress_file zlib_1_2_13 reused abc
      = { error := none, consumed := 3, dispatched := 1,
          outfile := some [77, 89, 67, 79, 77, 80, 1, 0, 0, 0, 0, 0, 0, 0,
            3, 0, 0, 0, 0, 0, 0, 0, 11, 0, 0, 0, 0, 0, 0, 0, 18, 217, 65, 255,
            120, 156, 99, 96, 96, 0, 0, 0, 3, 0, 1] } ∧
    compress_file zlib_1_2_13 unmapped abc = killed_run := by
  refine ⟨(compress_file_layout_fails zlib_1_2_13 reused abc (by decide) (by decide) (by
    intro a b h
    have h2 : some (List.replicate abc.length (0 : UInt8), List.replicate abc.length (0 : UInt8))
        = some (a, b) := h
    injection h2 with h3
    injection h3 with h4 h5
    rw [← h4]
    left
    decide)).1, ?_, by decide, by decide⟩
  rw [spec_records_single zlib_1_2_13 abc (by decide) (by decide)]
  decide

end FileCompressor
